import Mathlib

/-!
# Verification of the AdventOfCode21 grid/graph/pathfinding core

Shallow embedding, in Lean 4, of the core data structures and algorithms of
the repository:

* `src/utils/coordinate_system.rs` — `Coordinate`, `Direction`;
* `src/utils/grid/unsized_grid.rs` — `UnsizedGrid<T>` (bounds-checked access,
  construction);
* `src/utils/graph.rs` — vector-indexed `Graph<N, E>` with an intrusive
  singly-linked adjacency list;
* `src/day15.rs` — the Dijkstra risk-pathfinder (`RiskMap`);
* `src/day12.rs` — the cave path-enumeration (`distinct_path_once`,
  `distinct_path_with_options`).

Modelling conventions:

* Rust machine integers are modelled as `Nat` with an explicit `% 2 ^ w`
  at the operations where overflow matters (`u16` accumulation in day 15,
  `u64` accumulation in day 12); `i32` coordinates are modelled as `Int`
  (coordinate arithmetic here never approaches `i32` bounds).
* A Rust panic (failed index, `unwrap`, `unreachable!`) is modelled as
  `Option.none` (or a distinguished constructor); fallible constructors
  return `Option`.
* Loops that are not structurally recursive take an explicit fuel
  parameter; running out of fuel is also `none`.  Theorems either supply a
  proven-sufficient fuel or are stated as partial correctness.
* `BinaryHeap<Reverse<(MinRisk, Coordinate)>>.pop` pops a least element in
  the lexicographic order on `(MinRisk, Coordinate)`.  Since entries with
  equal keys are identical tuples, popping *a* least occurrence is
  observationally exact; we pop the first least occurrence.
-/

namespace AoC

/-! ## Coordinate and Direction (`src/utils/coordinate_system.rs`) -/

/-- `Coordinate { i: i32, j: i32 }`. -/
structure Coordinate where
  i : Int
  j : Int
deriving DecidableEq, Repr

/-- `Direction` — closed enum {North, East, South, West}. -/
inductive Direction where
  | North | East | South | West
deriving DecidableEq, Repr

/-- `Direction::offset`. -/
def Direction.offset : Direction → Int × Int
  | .North => (-1, 0)
  | .East => (0, 1)
  | .South => (1, 0)
  | .West => (0, -1)

/-- `Direction::direction_list()`. -/
def Direction.direction_list : List Direction :=
  [.North, .East, .South, .West]

/-- `impl Add<Direction> for Coordinate`. -/
def Coordinate.addDir (c : Coordinate) (d : Direction) : Coordinate :=
  ⟨c.i + d.offset.1, c.j + d.offset.2⟩

/-! ## UnsizedGrid (`src/utils/grid/unsized_grid.rs`)

`UnsizedGrid<T> { matrix: Box<[Box<[T]>]> }` is modelled as a list of rows.
`get` returns `Option (Option T)`: the outer `none` is a Rust panic (an
in-range row index whose row is too short — possible because construction
does not enforce rectangularity), `some none` is Rust's `None`,
`some (some v)` is Rust's `Some(&v)`. -/

/-- `UnsizedGrid<T>`. -/
structure UnsizedGrid (T : Type) where
  matrix : List (List T)
deriving DecidableEq, Repr

namespace UnsizedGrid

variable {T : Type}

/-- `UnsizedGrid::from_box` — no checks at all. -/
def from_box (grid : List (List T)) : UnsizedGrid T :=
  ⟨grid⟩

/-- `UnsizedGrid::new` — `assert!(grid.len() > 0); assert!(grid[0].len() > 0)`.
A failed assert is a panic, modelled as `none`.  There is no
rectangularity check in the source. -/
def new (grid : List (List T)) : Option (UnsizedGrid T) :=
  if 0 < grid.length then
    if 0 < (grid.headD []).length then some ⟨grid⟩ else none
  else none

/-- `UnsizedGrid::num_rows`. -/
def num_rows (g : UnsizedGrid T) : Nat :=
  g.matrix.length

/-- `UnsizedGrid::num_cols` — `self.matrix[0].len()`.  On an empty matrix the
source would panic, but every caller reaches it behind a guard that the
grid has at least one row, where `headD` agrees with `matrix[0]`. -/
def num_cols (g : UnsizedGrid T) : Nat :=
  (g.matrix.headD []).length

/-- `UnsizedGrid::is_valid_position`, with Rust's short-circuiting `&&`
(so `num_cols` is only consulted when `0 ≤ i < num_rows`). -/
def is_valid_position (g : UnsizedGrid T) (p : Coordinate) : Bool :=
  0 ≤ p.i && 0 ≤ p.j && p.i < (g.num_rows : Int) && p.j < (g.num_cols : Int)

/-- `UnsizedGrid::get`.  Outer `none` = panic, `some none` = `None`,
`some (some v)` = `Some(&v)`. -/
def get (g : UnsizedGrid T) (p : Coordinate) : Option (Option T) :=
  if g.is_valid_position p then
    match g.matrix.get? p.i.toNat >>= fun row => row.get? p.j.toNat with
    | some v => some (some v)
    | none => none
  else
    some none

/-- In-place update of one cell (the effect of writing through
`get_mut` at a valid position). -/
def setCell (g : UnsizedGrid T) (p : Coordinate) (v : T) : UnsizedGrid T :=
  ⟨g.matrix.set p.i.toNat ((g.matrix.getD p.i.toNat []).set p.j.toNat v)⟩

/-- Rectangularity: every row has the length of the first row. -/
def Rect (g : UnsizedGrid T) : Prop :=
  ∀ row ∈ g.matrix, row.length = g.num_cols

instance (g : UnsizedGrid T) : Decidable (Rect g) := by
  unfold Rect; infer_instance

end UnsizedGrid

/-! ### Claim C5 — bounds contract of `UnsizedGrid::get` -/

/-- The ragged grid reachable through `from_box` that refutes C5 as stated
over *every* constructed grid. -/
def raggedGrid : UnsizedGrid Nat :=
  UnsizedGrid.from_box [[0, 1], [2]]

/-- C5 (counterexample): the claim promises that `get` never panics and
returns `Some` at every in-bounds coordinate of every constructed grid.
The ragged grid `[[0,1],[2]]` is constructed by `UnsizedGrid::from_box`
(which performs no checks); coordinate `(1,1)` is in bounds
(`0 ≤ 1 < num_rows = 2`, `0 ≤ 1 < num_cols = 2`), yet `get` panics: row 1
has no column 1.  -/
theorem unsizedGrid_get_panics_on_ragged :
    raggedGrid.is_valid_position ⟨1, 1⟩ = true ∧
      raggedGrid.get ⟨1, 1⟩ = none := by
  decide

/-- C5 (amended): for every *rectangular* constructed grid and every
coordinate `(i, j)`, `get` returns `Some` of the element at row `i`,
column `j` iff `0 ≤ i < num_rows` and `0 ≤ j < num_cols`, otherwise it
returns `None`; it never panics and never wraps around. -/
theorem unsizedGrid_get_bounds_contract {T : Type} (g : UnsizedGrid T)
    (hrect : g.Rect) (p : Coordinate) :
    (0 ≤ p.i ∧ 0 ≤ p.j ∧ p.i < (g.num_rows : Int) ∧ p.j < (g.num_cols : Int) →
      ∃ row v, g.matrix.get? p.i.toNat = some row ∧
        row.get? p.j.toNat = some v ∧ g.get p = some (some v)) ∧
    (¬(0 ≤ p.i ∧ 0 ≤ p.j ∧ p.i < (g.num_rows : Int) ∧ p.j < (g.num_cols : Int)) →
      g.get p = some none) := by
  constructor
  · rintro ⟨h1, h2, h3, h4⟩
    have hval : g.is_valid_position p = true := by
      simp [UnsizedGrid.is_valid_position, h1, h2, h3, h4]
    have hi : p.i.toNat < g.matrix.length := by
      have : (g.num_rows : Int) = (g.matrix.length : Int) := by
        simp [UnsizedGrid.num_rows]
      omega
    obtain ⟨row, hrow⟩ : ∃ row, g.matrix.get? p.i.toNat = some row :=
      ⟨_, List.get?_eq_get hi⟩
    have hrowlen : row.length = g.num_cols :=
      hrect row (List.get?_mem hrow)
    have hj : p.j.toNat < row.length := by
      rw [hrowlen]; omega
    obtain ⟨v, hv⟩ : ∃ v, row.get? p.j.toNat = some v :=
      ⟨_, List.get?_eq_get hj⟩
    refine ⟨row, v, hrow, hv, ?_⟩
    rw [List.get?_eq_getElem?] at hrow
    rw [List.get?_eq_getElem?] at hv
    simp [UnsizedGrid.get, hval, hrow, hv]
  · intro h
    cases hvp : g.is_valid_position p
    · simp [UnsizedGrid.get, hvp]
    · exfalso
      apply h
      unfold UnsizedGrid.is_valid_position at hvp
      simp only [Bool.and_eq_true, decide_eq_true_eq] at hvp
      exact ⟨hvp.1.1.1, hvp.1.1.2, hvp.1.2, hvp.2⟩

/-- Witness for the amended C5 at a concrete rectangular grid and
coordinate. -/
theorem unsizedGrid_get_bounds_contract_witness :
    (0 ≤ (1 : Int) ∧ 0 ≤ (1 : Int) ∧
        (1 : Int) < ((UnsizedGrid.from_box [[10, 11], [12, 13]]).num_rows : Int) ∧
        (1 : Int) < ((UnsizedGrid.from_box [[10, 11], [12, 13]]).num_cols : Int) →
      ∃ row v, (UnsizedGrid.from_box [[10, 11], [12, 13]]).matrix.get? (1 : Int).toNat = some row ∧
        row.get? (1 : Int).toNat = some v ∧
        (UnsizedGrid.from_box [[10, 11], [12, 13]]).get ⟨1, 1⟩ = some (some v)) ∧
    (¬(0 ≤ (1 : Int) ∧ 0 ≤ (1 : Int) ∧
        (1 : Int) < ((UnsizedGrid.from_box [[10, 11], [12, 13]]).num_rows : Int) ∧
        (1 : Int) < ((UnsizedGrid.from_box [[10, 11], [12, 13]]).num_cols : Int)) →
      (UnsizedGrid.from_box [[10, 11], [12, 13]]).get ⟨1, 1⟩ = some none) :=
  unsizedGrid_get_bounds_contract (UnsizedGrid.from_box [[10, 11], [12, 13]])
    (by decide) ⟨1, 1⟩

/-! ### Claim C6 — construction and ragged/empty input -/

/-- C6 (counterexample): the claim says construction fails whenever some
row's length differs from the first row's length.  `UnsizedGrid::new`
accepts the ragged input `[[1,2],[3]]` (its two asserts only check
non-emptiness), so construction silently succeeds on a ragged input. -/
theorem unsizedGrid_new_accepts_ragged :
    (UnsizedGrid.new [[1, 2], [3]] = some (UnsizedGrid.from_box [[1, 2], [3]])) ∧
      ¬([3] : List Nat).length = ([1, 2] : List Nat).length := by
  decide

/-- C6 (amended): `UnsizedGrid::new` fails (panics on an assert) exactly
when the input has no rows or its first row is empty; it does **not**
check rectangularity, so construction silently succeeds on every ragged
input with a nonempty first row (and `from_box` performs no checks at
all). -/
theorem unsizedGrid_new_characterization {T : Type} (grid : List (List T)) :
    UnsizedGrid.new grid = none ↔
      (grid.length = 0 ∨ (grid.headD []).length = 0) := by
  unfold UnsizedGrid.new
  split
  · split
    · simp only [reduceCtorEq, false_iff]
      omega
    · simp only [true_iff]
      omega
  · simp only [true_iff]
    omega

/-- Witness: C6's amended theorem has no hypothesis other than the input,
but we instantiate it at a concrete empty input anyway. -/
theorem unsizedGrid_new_characterization_witness :
    UnsizedGrid.new ([] : List (List Nat)) = none ↔
      (([] : List (List Nat)).length = 0 ∨ (([] : List (List Nat)).headD []).length = 0) :=
  unsizedGrid_new_characterization ([] : List (List Nat))

/-! ## Graph (`src/utils/graph.rs`)

`Graph<N, E>` stores nodes and edges in flat vectors; each node holds an
optional index of its first outgoing edge, each edge holds the target node
index and an optional index of the next edge of the same adjacency list. -/

/-- `Node<N> { data, node_index, first_edge }`. -/
structure GNode (N : Type) where
  data : N
  node_index : Nat
  first_edge : Option Nat
deriving DecidableEq, Repr

/-- `Edge<E> { data, to, next_edge }`. -/
structure GEdge (E : Type) where
  data : E
  to_ : Nat
  next_edge : Option Nat
deriving DecidableEq, Repr

/-- `Graph<N, E> { nodes, edges }`. -/
structure Graph (N E : Type) where
  nodes : List (GNode N)
  edges : List (GEdge E)
deriving DecidableEq, Repr

namespace Graph

variable {N E : Type}

/-- `Graph::new`. -/
def new : Graph N E :=
  ⟨[], []⟩

/-- `Graph::add_node` — O(1) append; returns the new graph together with
the returned `NodeIndex`. -/
def add_node (g : Graph N E) (data : N) : Graph N E × Nat :=
  let node_index := g.nodes.length
  (⟨g.nodes ++ [⟨data, node_index, none⟩], g.edges⟩, node_index)

/-- `Graph::add_edge` — pushes an edge whose `next_edge` is `from`'s old
`first_edge`, then points `from`'s `first_edge` at the new edge.
`self.nodes[from.idx]` panics (`none`) when `from` is out of bounds; `to`
is not checked. -/
def add_edge (g : Graph N E) (from_ to_ : Nat) (edge_data : E) : Option (Graph N E) :=
  match h : g.nodes.get? from_ with
  | none => none
  | some node =>
    let new_edge_index := g.edges.length
    some ⟨g.nodes.set from_ { node with first_edge := some new_edge_index },
      g.edges ++ [⟨edge_data, to_, node.first_edge⟩]⟩

/-- The adjacency chain of `Neighbours::next`, materialised as a list of
the yielded `edge.to` (field `to_`) indices.  `fuel` bounds the number of steps; `none`
means the chain did not terminate within `fuel` steps or an edge index was
dangling. -/
def chainToList (edges : List (GEdge E)) : Nat → Option Nat → Option (List Nat)
  | _, none => some []
  | 0, some _ => none
  | fuel + 1, some k =>
    match edges.get? k with
    | none => none
    | some e => (chainToList edges fuel e.next_edge).map fun rest => e.to_ :: rest

/-- `Graph::neighbours_iter`, run to exhaustion.  `self.nodes[node_index.idx]`
panics on an invalid index (`none`); the chain is given `edges.length + 1`
fuel, which suffices for every graph built by `add_node`/`add_edge`. -/
def neighbours (g : Graph N E) (node_index : Nat) : Option (List Nat) :=
  match g.nodes.get? node_index with
  | none => none
  | some node => chainToList g.edges (g.edges.length + 1) node.first_edge

/-- Well-formedness maintained by `add_node`/`add_edge`: every edge's
`next_edge` points strictly below it, and every node's `first_edge` is a
real edge index. -/
def WF (g : Graph N E) : Prop :=
  (∀ k e, g.edges.get? k = some e → ∀ m ∈ e.next_edge, m < k) ∧
    (∀ node ∈ g.nodes, ∀ k ∈ node.first_edge, k < g.edges.length)

end Graph

/-- One recorded `Graph` call: `add_node` or `add_edge`. -/
inductive GOp (N E : Type) where
  | node (data : N)
  | edge (from_ to_ : Nat) (data : E)

/-- Apply one call; `none` propagates an `add_edge` panic. -/
def Graph.applyOp (g : Graph N E) : GOp N E → Option (Graph N E)
  | .node d => some (g.add_node d).1
  | .edge f t d => g.add_edge f t d

/-- Replay a sequence of calls against `Graph::new`. -/
def buildGraph {N E : Type} (ops : List (GOp N E)) : Option (Graph N E) :=
  ops.foldlM Graph.applyOp Graph.new

/-- The targets of the edges added out of node `n`, in insertion order. -/
def outTargets {N E : Type} (ops : List (GOp N E)) (n : Nat) : List Nat :=
  ops.filterMap fun op =>
    match op with
    | .edge f t _ => if f = n then some t else none
    | .node _ => none

section GraphLemmas

variable {N E : Type}

theorem chainToList_fuel_mono {edges : List (GEdge E)} :
    ∀ {fuel : Nat} {st : Option Nat} {l : List Nat},
      Graph.chainToList edges fuel st = some l →
      Graph.chainToList edges (fuel + 1) st = some l := by
  intro fuel
  induction fuel with
  | zero =>
    intro st l h
    cases st with
    | none => simpa [Graph.chainToList] using h
    | some k => simp [Graph.chainToList] at h
  | succ fuel ih =>
    intro st l h
    cases st with
    | none => simpa [Graph.chainToList] using h
    | some k =>
      simp only [Graph.chainToList] at h ⊢
      cases he : edges.get? k with
      | none => rw [he] at h; simp at h
      | some e =>
        rw [he] at h
        simp only [Option.map_eq_some'] at h
        obtain ⟨rest, hrest, rfl⟩ := h
        simp [ih hrest]

theorem chainToList_fuel_le {edges : List (GEdge E)} {fuel fuel' : Nat}
    {st : Option Nat} {l : List Nat} (hle : fuel ≤ fuel')
    (h : Graph.chainToList edges fuel st = some l) :
    Graph.chainToList edges fuel' st = some l := by
  induction fuel' with
  | zero =>
    have : fuel = 0 := by omega
    subst this; exact h
  | succ fuel' ih =>
    rcases Nat.lt_or_ge fuel (fuel' + 1) with hlt | hge
    · exact chainToList_fuel_mono (ih (by omega))
    · have : fuel = fuel' + 1 := by omega
      subst this; exact h

/-- Under the decreasing-`next_edge` invariant, a chain starting at a real
edge index terminates within the fuel and yields at most `start + 1`
targets. -/
theorem chainToList_completes {edges : List (GEdge E)}
    (hwf : ∀ k e, edges.get? k = some e → ∀ m ∈ e.next_edge, m < k) :
    ∀ (fuel : Nat) (st : Option Nat),
      (∀ k ∈ st, k < edges.length ∧ k < fuel) →
      ∃ l, Graph.chainToList edges fuel st = some l ∧
        l.length ≤ (match st with | none => 0 | some k => k + 1) := by
  intro fuel
  induction fuel with
  | zero =>
    intro st hst
    cases st with
    | none => exact ⟨[], rfl, by simp⟩
    | some k => exact absurd (hst k rfl).2 (by omega)
  | succ fuel ih =>
    intro st hst
    cases st with
    | none => exact ⟨[], rfl, by simp⟩
    | some k =>
      obtain ⟨hk, hkf⟩ := hst k rfl
      obtain ⟨e, he⟩ : ∃ e, edges.get? k = some e := ⟨_, List.get?_eq_get hk⟩
      have hnext : ∀ m ∈ e.next_edge, m < edges.length ∧ m < fuel := by
        intro m hm
        have hmk := hwf k e he m hm
        exact ⟨by omega, by omega⟩
      obtain ⟨l, hl, hlen⟩ := ih e.next_edge hnext
      have he2 : edges[k]? = some e := by
        rw [← List.get?_eq_getElem?]; exact he
      refine ⟨e.to_ :: l, ?_, ?_⟩
      · simp [Graph.chainToList, he2, hl]
      · cases hne : e.next_edge with
        | none => rw [hne] at hlen; simp at hlen; simp [hlen]
        | some m =>
          rw [hne] at hlen
          have hlen' : l.length ≤ m + 1 := hlen
          have := hwf k e he m (by rw [hne]; rfl)
          simp only [List.length_cons]
          omega

/-- Chains lying inside the old edge vector are unaffected by appending
new edges. -/
theorem chainToList_append {edges : List (GEdge E)} (more : List (GEdge E))
    (hwf : ∀ k e, edges.get? k = some e → ∀ m ∈ e.next_edge, m < k) :
    ∀ (fuel : Nat) (st : Option Nat), (∀ k ∈ st, k < edges.length) →
      Graph.chainToList (edges ++ more) fuel st = Graph.chainToList edges fuel st := by
  intro fuel
  induction fuel with
  | zero =>
    intro st hst
    cases st <;> rfl
  | succ fuel ih =>
    intro st hst
    cases st with
    | none => rfl
    | some k =>
      have hk : k < edges.length := hst k rfl
      obtain ⟨e, he⟩ : ∃ e, edges.get? k = some e := ⟨_, List.get?_eq_get hk⟩
      have he' : (edges ++ more).get? k = some e := by
        rw [List.get?_eq_getElem?, List.getElem?_append_left hk, ← List.get?_eq_getElem?]
        exact he
      have hnext : ∀ m ∈ e.next_edge, m < edges.length := by
        intro m hm
        have := hwf k e he m hm
        omega
      have he2 : edges[k]? = some e := by
        rw [← List.get?_eq_getElem?]; exact he
      have he2' : (edges ++ more)[k]? = some e := by
        rw [← List.get?_eq_getElem?]; exact he'
      simp [Graph.chainToList, he2, he2', ih e.next_edge hnext]

theorem add_edge_eq_some {g : Graph N E} {f t : Nat} {d : E} {g' : Graph N E}
    (h : g.add_edge f t d = some g') :
    ∃ node, g.nodes.get? f = some node ∧
      g' = ⟨g.nodes.set f { node with first_edge := some g.edges.length },
        g.edges ++ [⟨d, t, node.first_edge⟩]⟩ := by
  unfold Graph.add_edge at h
  cases hn : g.nodes.get? f with
  | none => rw [hn] at h; exact absurd h (by simp)
  | some node =>
    rw [hn] at h
    simp only [Option.some.injEq] at h
    exact ⟨node, rfl, h.symm⟩

theorem WF_new : (Graph.new : Graph N E).WF := by
  constructor
  · intro k e he
    simp [Graph.new] at he
  · intro node hnode
    simp [Graph.new] at hnode

theorem WF_add_node {g : Graph N E} (hwf : g.WF) (d : N) :
    ((g.add_node d).1).WF := by
  obtain ⟨hedge, hnode⟩ := hwf
  constructor
  · exact hedge
  · intro node hmem k hk
    simp only [Graph.add_node, List.mem_append, List.mem_singleton] at hmem
    rcases hmem with hmem | rfl
    · exact hnode node hmem k hk
    · simp at hk

theorem WF_add_edge {g : Graph N E} (hwf : g.WF) {f t : Nat} {d : E}
    {g' : Graph N E} (h : g.add_edge f t d = some g') : g'.WF := by
  obtain ⟨hedge, hnode⟩ := hwf
  obtain ⟨node, hn, rfl⟩ := add_edge_eq_some h
  constructor
  · intro k e he m hm
    simp only at he
    rcases Nat.lt_or_ge k g.edges.length with hk | hk
    · rw [List.get?_eq_getElem?, List.getElem?_append_left hk,
        ← List.get?_eq_getElem?] at he
      exact hedge k e he m hm
    · have hk2 : k < g.edges.length + 1 := by
        have := List.get?_eq_some.mp he
        obtain ⟨hlen, -⟩ := this
        simpa using hlen
      have hkeq : k = g.edges.length := by omega
      subst hkeq
      have : (g.edges ++ [(⟨d, t, node.first_edge⟩ : GEdge E)]).get? g.edges.length =
          some (⟨d, t, node.first_edge⟩ : GEdge E) := by
        rw [List.get?_eq_getElem?]
        exact List.getElem?_concat_length _ _
      rw [this] at he
      cases he
      have := hnode node (List.get?_mem hn) m hm
      omega
  · intro nd hmem k hk
    simp only [List.length_append, List.length_cons, List.length_nil] at *
    rcases List.mem_or_eq_of_mem_set hmem with hmem | rfl
    · have := hnode nd hmem k hk
      omega
    · simp only [Option.mem_def, Option.some.injEq] at hk
      omega

/-- `add_node` does not disturb the adjacency of an existing node. -/
theorem neighbours_add_node {g : Graph N E} (d : N) {n : Nat}
    (hn : n < g.nodes.length) :
    ((g.add_node d).1).neighbours n = g.neighbours n := by
  unfold Graph.neighbours
  have : ((g.add_node d).1).nodes.get? n = g.nodes.get? n := by
    simp only [Graph.add_node]
    rw [List.get?_eq_getElem?, List.getElem?_append_left hn, ← List.get?_eq_getElem?]
  rw [this]
  rfl

/-- `add_edge from to` does not disturb the adjacency of any node other
than `from`. -/
theorem neighbours_add_edge_ne {g : Graph N E} (hwf : g.WF) {f t : Nat} {d : E}
    {g' : Graph N E} (h : g.add_edge f t d = some g') {n : Nat} (hn : n ≠ f) :
    g'.neighbours n = g.neighbours n := by
  obtain ⟨node, hf, rfl⟩ := add_edge_eq_some h
  unfold Graph.neighbours
  have hget : (g.nodes.set f { node with first_edge := some g.edges.length }).get? n =
      g.nodes.get? n := List.get?_set_ne _ _ (fun hEq => hn hEq.symm)
  simp only [hget]
  cases hgn : g.nodes.get? n with
  | none => rfl
  | some nd =>
    have hbound : ∀ k ∈ nd.first_edge, k < g.edges.length :=
      hwf.2 nd (List.get?_mem hgn)
    obtain ⟨l, hl, -⟩ := chainToList_completes hwf.1 (g.edges.length + 1) nd.first_edge
      (fun k hk => ⟨hbound k hk, by have := hbound k hk; omega⟩)
    have happ := chainToList_append [(⟨d, t, node.first_edge⟩ : GEdge E)] hwf.1
      (g.edges.length + 1 + 1) nd.first_edge hbound
    simp only [List.length_append, List.length_cons, List.length_nil]
    rw [happ, chainToList_fuel_mono hl, hl]

/-- Unfolding a chain that starts at the just-appended edge. -/
theorem chainToList_concat_start {edges : List (GEdge E)} {e : GEdge E} {fuel : Nat} :
    Graph.chainToList (edges ++ [e]) (fuel + 1) (some edges.length) =
      (Graph.chainToList (edges ++ [e]) fuel e.next_edge).map fun rest => e.to_ :: rest := by
  have hcat : (edges ++ [e])[edges.length]? = some e := List.getElem?_concat_length _ _
  simp [Graph.chainToList, hcat]

/-- `add_edge from to` prepends `to` to the adjacency of `from`. -/
theorem neighbours_add_edge_self {g : Graph N E} (hwf : g.WF) {f t : Nat} {d : E}
    {g' : Graph N E} (h : g.add_edge f t d = some g') {l : List Nat}
    (hl : g.neighbours f = some l) :
    g'.neighbours f = some (t :: l) := by
  obtain ⟨node, hf, rfl⟩ := add_edge_eq_some h
  have hl' : Graph.chainToList g.edges (g.edges.length + 1) node.first_edge = some l := by
    unfold Graph.neighbours at hl
    rw [hf] at hl
    exact hl
  have hfn : f < g.nodes.length := (List.get?_eq_some.mp hf).1
  have hget : (g.nodes.set f { node with first_edge := some g.edges.length }).get? f =
      some { node with first_edge := some g.edges.length } :=
    List.get?_set_eq_of_lt _ hfn
  unfold Graph.neighbours
  rw [hget]
  show Graph.chainToList (g.edges ++ [⟨d, t, node.first_edge⟩])
      ((g.edges ++ [(⟨d, t, node.first_edge⟩ : GEdge E)]).length + 1)
      (some g.edges.length) = some (t :: l)
  have hlen2 : (g.edges ++ [(⟨d, t, node.first_edge⟩ : GEdge E)]).length =
      g.edges.length + 1 := by simp
  rw [hlen2, chainToList_concat_start]
  have hbound : ∀ k ∈ node.first_edge, k < g.edges.length :=
    hwf.2 node (List.get?_mem hf)
  rw [chainToList_append [(⟨d, t, node.first_edge⟩ : GEdge E)] hwf.1
    (g.edges.length + 1) node.first_edge hbound]
  rw [hl']
  rfl

/-- A new node has no neighbours. -/
theorem neighbours_add_node_self {g : Graph N E} (d : N) :
    ((g.add_node d).1).neighbours g.nodes.length = some [] := by
  unfold Graph.neighbours
  have : ((g.add_node d).1).nodes.get? g.nodes.length =
      some ⟨d, g.nodes.length, none⟩ := by
    simp only [Graph.add_node]
    rw [List.get?_eq_getElem?]
    exact List.getElem?_concat_length _ _
  rw [this]
  rfl

theorem buildGraph_append_op {ops : List (GOp N E)} {op : GOp N E} :
    buildGraph (ops ++ [op]) = (buildGraph ops).bind fun g => g.applyOp op := by
  unfold buildGraph
  rw [List.foldlM_append]
  cases ops.foldlM Graph.applyOp Graph.new with
  | none => rfl
  | some g =>
    simp only [Option.some_bind]
    show ([op].foldlM Graph.applyOp g) = g.applyOp op
    simp only [List.foldlM_cons, List.foldlM_nil]
    cases h : g.applyOp op <;> simp

theorem outTargets_append {ops : List (GOp N E)} {op : GOp N E} {n : Nat} :
    outTargets (ops ++ [op]) n = outTargets ops n ++ outTargets [op] n := by
  unfold outTargets
  rw [List.filterMap_append]

/-- The combined induction: every graph built by a sequence of calls is
well-formed, has no edges out of not-yet-existing nodes, and the
neighbour list of every node is the reverse of the insertion order of its
outgoing edges. -/
theorem buildGraph_spec (ops : List (GOp N E)) :
    ∀ g, buildGraph ops = some g →
      g.WF ∧ (∀ n, g.nodes.length ≤ n → outTargets ops n = []) ∧
        (∀ n, n < g.nodes.length → g.neighbours n = some (outTargets ops n).reverse) := by
  induction ops using List.reverseRecOn with
  | nil =>
    intro g hg
    have : g = Graph.new := by
      simpa [buildGraph, List.foldlM] using hg.symm
    subst this
    refine ⟨WF_new, ?_, ?_⟩
    · intro n _
      rfl
    · intro n hn
      simp [Graph.new] at hn
  | append_singleton ops op ih =>
    intro g hg
    rw [buildGraph_append_op] at hg
    cases hb : buildGraph ops with
    | none => rw [hb] at hg; exact absurd hg (by simp)
    | some g₀ =>
      rw [hb] at hg
      simp only [Option.some_bind] at hg
      obtain ⟨hwf₀, hout₀, hnb₀⟩ := ih g₀ hb
      cases op with
      | node d =>
        simp only [Graph.applyOp, Option.some.injEq] at hg
        subst hg
        have hlen : ((g₀.add_node d).1).nodes.length = g₀.nodes.length + 1 := by
          simp [Graph.add_node]
        have houteq : ∀ n, outTargets (ops ++ [GOp.node d]) n = outTargets ops n := by
          intro n
          rw [outTargets_append]
          simp [outTargets]
        refine ⟨WF_add_node hwf₀ d, ?_, ?_⟩
        · intro n hn
          rw [houteq]
          exact hout₀ n (by omega)
        · intro n hn
          rw [hlen] at hn
          rw [houteq]
          rcases Nat.lt_or_ge n g₀.nodes.length with hlt | hge
          · rw [neighbours_add_node d hlt]
            exact hnb₀ n hlt
          · have hEq : n = g₀.nodes.length := by omega
            rw [hEq, neighbours_add_node_self, hout₀ g₀.nodes.length (le_refl _)]
            rfl
      | edge f t d =>
        simp only [Graph.applyOp] at hg
        have hlen : ∀ g', g₀.add_edge f t d = some g' →
            g'.nodes.length = g₀.nodes.length := by
          intro g' h'
          obtain ⟨node, hf, rfl⟩ := add_edge_eq_some h'
          simp
        have hf : f < g₀.nodes.length := by
          obtain ⟨node, hf, -⟩ := add_edge_eq_some hg
          exact (List.get?_eq_some.mp hf).1
        refine ⟨WF_add_edge hwf₀ hg, ?_, ?_⟩
        · intro n hn
          rw [hlen g hg] at hn
          rw [outTargets_append]
          rw [hout₀ n hn]
          simp only [outTargets, List.filterMap, List.nil_append]
          have : f ≠ n := by omega
          simp [this]
        · intro n hn
          rw [hlen g hg] at hn
          rw [outTargets_append]
          by_cases hnf : n = f
          · subst hnf
            have := neighbours_add_edge_self hwf₀ hg (hnb₀ n hn)
            rw [this]
            simp [outTargets]
          · rw [neighbours_add_edge_ne hwf₀ hg hnf]
            rw [hnb₀ n hn]
            simp only [outTargets, List.filterMap, List.append_nil]
            have : f ≠ n := fun hEq => hnf hEq.symm
            simp [this]

end GraphLemmas

/-! ### Claims C7, C9, C10 — adjacency order, termination, frame -/

/-- The build of §8's adjacency test: nodes A, B, C, D, then edges
(A→B), (A→C), (A→D) in that order. -/
def demoOps : List (GOp String Unit) :=
  [.node "A", .node "B", .node "C", .node "D",
    .edge 0 1 (), .edge 0 2 (), .edge 0 3 ()]

/-- The graph `demoOps` builds. -/
def demoGraph : Graph String Unit :=
  ⟨[⟨"A", 0, some 2⟩, ⟨"B", 1, none⟩, ⟨"C", 2, none⟩, ⟨"D", 3, none⟩],
    [⟨(), 1, none⟩, ⟨(), 2, some 0⟩, ⟨(), 3, some 1⟩]⟩

/-- C7: for every graph built by a sequence of `add_node`/`add_edge` calls
and every node of it, the neighbour iterator yields exactly the reverse of
the order in which that node's outgoing edges were added (so after adding
(A→B), (A→C), (A→D), the neighbours of A are D, C, B — see the witness). -/
theorem graph_neighbours_reverse_insertion {N E : Type} (ops : List (GOp N E))
    (g : Graph N E) (hg : buildGraph ops = some g) (n : Nat)
    (hn : n < g.nodes.length) :
    g.neighbours n = some (outTargets ops n).reverse :=
  (buildGraph_spec ops g hg).2.2 n hn

/-- Witness for C7: in the A/B/C/D build, `neighbours(A)` is
`[D, C, B]` = `[3, 2, 1]`, the reverse of the insertion order. -/
theorem graph_neighbours_reverse_insertion_witness :
    demoGraph.neighbours 0 = some (outTargets demoOps 0).reverse ∧
      (outTargets demoOps 0).reverse = [3, 2, 1] :=
  ⟨graph_neighbours_reverse_insertion demoOps demoGraph (by decide) 0 (by decide),
    by decide⟩

/-- C9: in every graph built by `add_node`/`add_edge` calls, each edge's
`next_edge` link refers to an edge with a strictly smaller index, and for
every valid node index the neighbour iterator terminates, yielding at most
as many items as there are edges. -/
theorem graph_chain_decreasing_and_iterator_terminates {N E : Type}
    (ops : List (GOp N E)) (g : Graph N E) (hg : buildGraph ops = some g) :
    (∀ k e, g.edges.get? k = some e → ∀ m ∈ e.next_edge, m < k) ∧
      ∀ n, n < g.nodes.length →
        ∃ l, g.neighbours n = some l ∧ l.length ≤ g.edges.length := by
  obtain ⟨⟨hedge, hnode⟩, -, -⟩ := buildGraph_spec ops g hg
  refine ⟨hedge, ?_⟩
  intro n hn
  obtain ⟨node, hnd⟩ : ∃ nd, g.nodes.get? n = some nd := ⟨_, List.get?_eq_get hn⟩
  have hbound : ∀ k ∈ node.first_edge, k < g.edges.length :=
    hnode node (List.get?_mem hnd)
  obtain ⟨l, hl, hlen⟩ := chainToList_completes hedge (g.edges.length + 1)
    node.first_edge (fun k hk => ⟨hbound k hk, by have := hbound k hk; omega⟩)
  refine ⟨l, ?_, ?_⟩
  · unfold Graph.neighbours
    rw [hnd]
    exact hl
  · cases hne : node.first_edge with
    | none =>
      rw [hne] at hlen
      have : l.length ≤ 0 := hlen
      omega
    | some k =>
      rw [hne] at hlen
      have h1 : l.length ≤ k + 1 := hlen
      have h2 : k < g.edges.length := hbound k (by rw [hne]; rfl)
      omega

/-- Witness for C9 at the concrete A/B/C/D build. -/
theorem graph_chain_decreasing_and_iterator_terminates_witness :
    (∀ k e, demoGraph.edges.get? k = some e → ∀ m ∈ e.next_edge, m < k) ∧
      ∀ n, n < demoGraph.nodes.length →
        ∃ l, demoGraph.neighbours n = some l ∧ l.length ≤ demoGraph.edges.length :=
  graph_chain_decreasing_and_iterator_terminates demoOps demoGraph (by decide)

/-- C10: on every built graph, `add_edge from to` changes the neighbour
sequence of no node other than `from` and changes no node's stored data;
`add_node` changes no existing node's neighbour sequence or data. -/
theorem graph_add_frame {N E : Type} (ops : List (GOp N E)) (g : Graph N E)
    (hg : buildGraph ops = some g) :
    (∀ f t d g', g.add_edge f t d = some g' →
      (∀ n, n ≠ f → g'.neighbours n = g.neighbours n) ∧
        ∀ n, (g'.nodes.get? n).map GNode.data = (g.nodes.get? n).map GNode.data) ∧
    (∀ d n, n < g.nodes.length →
      ((g.add_node d).1).neighbours n = g.neighbours n ∧
        (((g.add_node d).1).nodes.get? n).map GNode.data =
          (g.nodes.get? n).map GNode.data) := by
  have hwf := (buildGraph_spec ops g hg).1
  constructor
  · intro f t d g' h
    refine ⟨fun n hn => neighbours_add_edge_ne hwf h hn, ?_⟩
    intro n
    obtain ⟨node, hf, rfl⟩ := add_edge_eq_some h
    by_cases hnf : n = f
    · subst hnf
      have hfn : n < g.nodes.length := (List.get?_eq_some.mp hf).1
      rw [List.get?_set_eq_of_lt _ hfn, hf]
      rfl
    · rw [List.get?_set_ne _ _ (fun hEq => hnf hEq.symm)]
  · intro d n hn
    refine ⟨neighbours_add_node d hn, ?_⟩
    simp only [Graph.add_node]
    rw [List.get?_eq_getElem?, List.getElem?_append_left hn, ← List.get?_eq_getElem?]

/-- Witness for C10 at the concrete A/B/C/D build. -/
theorem graph_add_frame_witness :
    (∀ f t d g', demoGraph.add_edge f t d = some g' →
      (∀ n, n ≠ f → g'.neighbours n = demoGraph.neighbours n) ∧
        ∀ n, (g'.nodes.get? n).map GNode.data =
          (demoGraph.nodes.get? n).map GNode.data) ∧
    (∀ d n, n < demoGraph.nodes.length →
      ((demoGraph.add_node d).1).neighbours n = demoGraph.neighbours n ∧
        (((demoGraph.add_node d).1).nodes.get? n).map GNode.data =
          (demoGraph.nodes.get? n).map GNode.data) :=
  graph_add_frame demoOps demoGraph (by decide)

/-! ## Day 15 — the Dijkstra risk-pathfinder (`src/day15.rs`)

A grid cell is `(Risk, MinRisk)` = `(u8, u16)`; `MinRisk` arithmetic
carries an explicit `% 2 ^ 16`, `u8` arithmetic in the expansion an
explicit `% 2 ^ 8` (release-mode wrapping).  `MinRisk::MAX = 65535`. -/

/-- A grid cell `(Risk, MinRisk)`. -/
abbrev Cell := Nat × Nat

/-- `MinRisk::MAX` for `type MinRisk = u16`. -/
def MinRiskMAX : Nat := 65535

/-- Modelled from the spec: `last_coordinate` (used by `RiskMap::new` but
not present under `src/`) returns the bottom-right coordinate
`(num_rows - 1, num_cols - 1)` — "compute the minimum total cost to travel
from the top-left cell to the bottom-right cell". -/
def UnsizedGrid.last_coordinate {T : Type} (g : UnsizedGrid T) : Coordinate :=
  ⟨(g.num_rows : Int) - 1, (g.num_cols : Int) - 1⟩

/-- `RiskMap { grid, end_coord }`.  The `end_coord` field is computed once
by `RiskMap::new` as `grid.last_coordinate()` and never mutated, so it is
modelled as the derived function `RiskMap.end_coord` instead of a field. -/
structure RiskMap where
  grid : UnsizedGrid Cell
deriving DecidableEq, Repr

/-- `RiskMap::new` — sets the best-known cost of `(0,0)` to `0`
(`.unwrap()` panics on an empty grid). -/
def RiskMap.new (grid : UnsizedGrid Cell) : Option RiskMap :=
  match grid.get ⟨0, 0⟩ with
  | some (some c) => some ⟨grid.setCell ⟨0, 0⟩ (c.1, 0)⟩
  | _ => none

/-- The cached `end_coord` field. -/
def RiskMap.end_coord (rm : RiskMap) : Coordinate :=
  rm.grid.last_coordinate

/-! ### `RiskMap::expand_5x` -/

/-- The value `expand_5x` writes at position `(i, j)` of the 5×-expanded
grid.  Mirrors the source exactly, including the `i % num_cols` /
`j % num_rows` index pair passed to `Coordinate::new` and the `.unwrap()`
(`none`) when that coordinate is outside the original grid. -/
def expandCell (rm : RiskMap) (i j : Nat) : Option Cell :=
  let original_width := rm.grid.num_cols
  let original_height := rm.grid.num_rows
  let base_x := i % original_width
  let base_y := j % original_height
  let target_x := (i / original_width) % 256
  let target_y := (j / original_height) % 256
  match rm.grid.get ⟨(base_x : Int), (base_y : Int)⟩ with
  | some (some c) =>
    let risk := (c.1 + target_x + target_y) % 256
    some (if risk > 9 then risk - 9 else risk, MinRiskMAX)
  | _ => none

/-- `RiskMap::expand_5x` — builds the `5·rows × 5·cols` grid cell by cell
(each cell of the fresh grid is written exactly once by the source's
`iter_mut` loop), then re-runs `RiskMap::new` on it. -/
def RiskMap.expand_5x (rm : RiskMap) : Option RiskMap := do
  let rows ← (List.range (rm.grid.num_rows * 5)).mapM fun i =>
    (List.range (rm.grid.num_cols * 5)).mapM fun j => expandCell rm i j
  RiskMap.new ⟨rows⟩

/-! ### `RiskMap::lowest_risk` -/

/-- A heap entry `(accumulated_risk, coordinate)`. -/
abbrev HeapEntry := Nat × Coordinate

/-- The lexicographic order on `(MinRisk, Coordinate)` by which
`BinaryHeap<Reverse<(MinRisk, Coordinate)>>` pops its least element. -/
def entryLe (a b : HeapEntry) : Bool :=
  a.1 < b.1 || (a.1 = b.1 && (a.2.i < b.2.i || (a.2.i = b.2.i && a.2.j ≤ b.2.j)))

/-- The least entry of the heap (the one `heap.pop()` yields). -/
def heapMin : List HeapEntry → Option HeapEntry
  | [] => none
  | x :: xs =>
    some (match heapMin xs with
      | none => x
      | some m => if entryLe x m then x else m)

/-- The in-flight state of `lowest_risk`: the mutable grid and the
priority queue's multiset of entries. -/
structure DState where
  grid : UnsizedGrid Cell
  heap : List HeapEntry
deriving DecidableEq, Repr

/-- Result of one loop iteration of `lowest_risk`. -/
inductive StepRes where
  | panic
  | ret (v : Nat)
  | next (s : DState)
deriving DecidableEq, Repr

/-- One neighbour relaxation: `new_risk = acc_risk + risk` (`u16`, hence
`% 2 ^ 16`); update and push only when it strictly improves `min_risk`.
`none` is the panic of an out-of-contract grid read (ragged grid). -/
def relaxDir (acc : Nat) (coord : Coordinate) (s : DState) (d : Direction) :
    Option DState :=
  let nc := coord.addDir d
  match s.grid.get nc with
  | none => none
  | some none => some s
  | some (some c) =>
    let new_risk := (acc + c.1) % 65536
    if new_risk < c.2 then
      some ⟨s.grid.setCell nc (c.1, new_risk), s.heap ++ [(new_risk, nc)]⟩
    else some s

/-- One iteration of the `while let Some(...) = heap.pop()` loop. -/
def step (endc : Coordinate) (s : DState) : StepRes :=
  match heapMin s.heap with
  | none => .panic
  | some e =>
    if e.2 = endc then .ret e.1
    else
      match Direction.direction_list.foldlM (relaxDir e.1 e.2)
          ⟨s.grid, s.heap.erase e⟩ with
      | none => .panic
      | some s' => .next s'

/-- Run the loop with explicit fuel; `none` is the `unreachable!` panic,
a ragged-grid panic, or fuel exhaustion. -/
def iterateD (endc : Coordinate) : Nat → DState → Option Nat
  | 0, _ => none
  | fuel + 1, s =>
    match step endc s with
    | .panic => none
    | .ret v => some v
    | .next s' => iterateD endc fuel s'

/-- Sum of all stored best-known costs — the termination potential. -/
def sumB (g : UnsizedGrid Cell) : Nat :=
  (g.matrix.map fun row => (row.map fun c => c.2).sum).sum

/-- Fuel that provably outlasts the loop: each iteration removes a heap
entry and every push strictly decreases some best-known cost. -/
def dijkstraFuel (s : DState) : Nat :=
  5 * sumB s.grid + s.heap.length + 1

/-- `RiskMap::lowest_risk`. -/
def RiskMap.lowest_risk (rm : RiskMap) : Option Nat :=
  let s₀ : DState := ⟨rm.grid, [(0, ⟨0, 0⟩)]⟩
  iterateD rm.end_coord (dijkstraFuel s₀) s₀

/-- The state after `n` non-returning loop iterations (for the
monotonicity claim C8); `none` once the run has returned or panicked. -/
def stepN (endc : Coordinate) : Nat → DState → Option DState
  | 0, s => some s
  | n + 1, s =>
    match step endc s with
    | .next s' => stepN endc n s'
    | _ => none

/-- The risk (`.1`) stored at row `i`, column `j`. -/
def riskAt (g : UnsizedGrid Cell) (i j : Nat) : Nat :=
  (((g.matrix.get? i).bind fun row => row.get? j).getD (0, 0)).1

/-- The best-known cost (`.2`) stored at row `i`, column `j`. -/
def bestAt (g : UnsizedGrid Cell) (i j : Nat) : Nat :=
  (((g.matrix.get? i).bind fun row => row.get? j).getD (0, 0)).2

/-! ### Bridging lemmas for rectangular grids -/

/-- The in-bounds predicate of `is_valid_position`, as a `Prop`. -/
def ValidPos {T : Type} (g : UnsizedGrid T) (p : Coordinate) : Prop :=
  0 ≤ p.i ∧ 0 ≤ p.j ∧ p.i < (g.num_rows : Int) ∧ p.j < (g.num_cols : Int)

instance {T : Type} (g : UnsizedGrid T) (p : Coordinate) :
    Decidable (ValidPos g p) := by
  unfold ValidPos
  infer_instance

theorem is_valid_position_iff {T : Type} (g : UnsizedGrid T) (p : Coordinate) :
    g.is_valid_position p = true ↔ ValidPos g p := by
  unfold UnsizedGrid.is_valid_position ValidPos
  simp only [Bool.and_eq_true, decide_eq_true_eq]
  tauto

theorem get_of_valid {T : Type} {g : UnsizedGrid T} (hrect : g.Rect)
    {p : Coordinate} (hv : ValidPos g p) :
    ∃ v, (g.matrix.get? p.i.toNat >>= fun row => row.get? p.j.toNat) = some v ∧
      g.get p = some (some v) := by
  obtain ⟨h1, h2, h3, h4⟩ := hv
  have hi : p.i.toNat < g.matrix.length := by
    have : (g.num_rows : Int) = (g.matrix.length : Int) := by
      simp [UnsizedGrid.num_rows]
    omega
  obtain ⟨row, hrow⟩ : ∃ row, g.matrix.get? p.i.toNat = some row :=
    ⟨_, List.get?_eq_get hi⟩
  have hrowlen : row.length = g.num_cols := hrect row (List.get?_mem hrow)
  have hj : p.j.toNat < row.length := by rw [hrowlen]; omega
  obtain ⟨v, hv'⟩ : ∃ v, row.get? p.j.toNat = some v := ⟨_, List.get?_eq_get hj⟩
  have hval : g.is_valid_position p = true := by
    rw [is_valid_position_iff]
    exact ⟨h1, h2, h3, h4⟩
  refine ⟨v, ?_, ?_⟩
  · rw [hrow]
    exact hv'
  · rw [List.get?_eq_getElem?] at hrow
    rw [List.get?_eq_getElem?] at hv'
    simp [UnsizedGrid.get, hval, hrow, hv']

theorem get_of_invalid {T : Type} {g : UnsizedGrid T} {p : Coordinate}
    (hv : ¬ ValidPos g p) : g.get p = some none := by
  cases hvp : g.is_valid_position p
  · simp [UnsizedGrid.get, hvp]
  · exact absurd ((is_valid_position_iff g p).mp hvp) hv

theorem mapM_eq_some_map {α β : Type} {l : List α} {f : α → Option β}
    {g : α → β} (h : ∀ a ∈ l, f a = some (g a)) :
    l.mapM f = some (l.map g) := by
  induction l with
  | nil => rfl
  | cons a l ih =>
    rw [List.mapM_cons, h a (List.mem_cons_self a l),
      ih fun x hx => h x (List.mem_cons_of_mem a hx)]
    rfl

theorem get?_map_range {β : Type} {n i : Nat} (f : Nat → β) (h : i < n) :
    ((List.range n).map f).get? i = some (f i) := by
  rw [List.get?_map, List.get?_range h]
  rfl

/-! ### Claim C2 — the 5× expansion formula -/

/-- A legitimate 1×2 risk map (costs in 1..=9, start best-known 0, other
best-known `MinRisk::MAX`). -/
def rm1x2 : RiskMap :=
  ⟨⟨[[(1, 0), (1, 65535)]]⟩⟩

/-- C2 (counterexample): on the non-square 1×2 risk map with all costs 1,
`expand_5x` panics (`none`) instead of producing a 5W×5H grid — the source
looks up `Coordinate::new(i % num_cols, j % num_rows)`, which leaves the
original grid whenever `num_rows ≠ num_cols` (here row index `1 % 2 = 1`
in a 1-row grid), so the claimed grid is not produced at all. -/
theorem expand_5x_panics_non_square :
    (∀ row ∈ rm1x2.grid.matrix, ∀ c ∈ row, 1 ≤ c.1 ∧ c.1 ≤ 9) ∧
      rm1x2.expand_5x = none := by
  constructor
  · decide
  · rfl

/-- The arithmetic of the expansion: `base + tx + ty` with the single
`if > 9 then -= 9` wrap equals the spec's `((base + tx + ty - 1) mod 9) + 1`
for `base ∈ 1..9`, `tx, ty ≤ 4`. -/
theorem wrap_risk_eq {c t1 t2 : Nat} (hc1 : 1 ≤ c) (hc9 : c ≤ 9)
    (h1 : t1 ≤ 4) (h2 : t2 ≤ 4) :
    (if (c + t1 % 256 + t2 % 256) % 256 > 9
      then (c + t1 % 256 + t2 % 256) % 256 - 9
      else (c + t1 % 256 + t2 % 256) % 256) = (c + t1 + t2 - 1) % 9 + 1 := by
  have e1 : t1 % 256 = t1 := Nat.mod_eq_of_lt (by omega)
  have e2 : t2 % 256 = t2 := Nat.mod_eq_of_lt (by omega)
  rw [e1, e2]
  have e3 : (c + t1 + t2) % 256 = c + t1 + t2 := Nat.mod_eq_of_lt (by omega)
  rw [e3]
  split <;> omega

/-- C2 (amended): for every *square* risk map (`num_rows = num_cols = W`)
with rectangular nonempty grid and costs in 1..=9, `expand_5x` produces
the 5W×5W grid whose cost at `(x, y)` is
`((original_cost[x mod W, y mod H] + x div W + y div H - 1) mod 9) + 1`,
so every expanded cost again lies in 1..=9.  (On non-square maps the
lookup's swapped indices panic — see the counterexample.) -/
theorem expand_5x_formula (rm : RiskMap) (hrect : rm.grid.Rect)
    (hne : 0 < rm.grid.num_rows)
    (hsq : rm.grid.num_rows = rm.grid.num_cols)
    (hcosts : ∀ row ∈ rm.grid.matrix, ∀ c ∈ row, 1 ≤ c.1 ∧ c.1 ≤ 9) :
    ∃ rm', rm.expand_5x = some rm' ∧
      rm'.grid.num_rows = 5 * rm.grid.num_rows ∧
      rm'.grid.num_cols = 5 * rm.grid.num_cols ∧
      ∀ x y, x < 5 * rm.grid.num_rows → y < 5 * rm.grid.num_cols →
        riskAt rm'.grid x y =
          (riskAt rm.grid (x % rm.grid.num_cols) (y % rm.grid.num_rows) +
            x / rm.grid.num_cols + y / rm.grid.num_rows - 1) % 9 + 1 ∧
        1 ≤ riskAt rm'.grid x y ∧ riskAt rm'.grid x y ≤ 9 := by
  classical
  set R := rm.grid.num_rows with hR
  set C := rm.grid.num_cols with hC
  have hCpos : 0 < C := by omega
  have hRpos : 0 < R := hne
  -- the value written at each expanded position
  have hcell : ∀ i j, i < 5 * R → j < 5 * C →
      expandCell rm i j = some
        ((riskAt rm.grid (i % C) (j % R) + i / C + j / R - 1) % 9 + 1,
          MinRiskMAX) := by
    intro i j hi hj
    have hvalid : ValidPos rm.grid ⟨((i % C : Nat) : Int), ((j % R : Nat) : Int)⟩ := by
      unfold ValidPos
      dsimp only
      have h1 : i % C < C := Nat.mod_lt _ hCpos
      have h2 : j % R < R := Nat.mod_lt _ hRpos
      refine ⟨by omega, by omega, by omega, by omega⟩
    obtain ⟨v, hvl, hvget⟩ := get_of_valid hrect hvalid
    have hvl' : (rm.grid.matrix.get? (i % C)).bind (fun row => row.get? (j % R)) =
        some v := hvl
    have hvrisk : v.1 = riskAt rm.grid (i % C) (j % R) := by
      unfold riskAt
      rw [hvl']
      rfl
    have hvmem : 1 ≤ v.1 ∧ v.1 ≤ 9 := by
      cases hrow : rm.grid.matrix.get? (i % C) with
      | none =>
        rw [hrow] at hvl'
        simp at hvl'
      | some row =>
        rw [hrow, Option.some_bind] at hvl'
        exact hcosts row (List.get?_mem hrow) v (List.get?_mem hvl')
    have htx : i / C ≤ 4 := by
      have h5 : i / C < 5 := (Nat.div_lt_iff_lt_mul hCpos).mpr (by omega)
      omega
    have hty : j / R ≤ 4 := by
      have h5 : j / R < 5 := (Nat.div_lt_iff_lt_mul hRpos).mpr (by omega)
      omega
    unfold expandCell
    simp only [← hR, ← hC]
    rw [hvget]
    simp only
    rw [wrap_risk_eq hvmem.1 hvmem.2 htx hty, hvrisk]
  set rows := (List.range (R * 5)).map (fun i => (List.range (C * 5)).map fun j =>
    ((riskAt rm.grid (i % C) (j % R) + i / C + j / R - 1) % 9 + 1, MinRiskMAX))
    with hrows
  have hinner : ∀ i ∈ List.range (R * 5),
      (List.range (rm.grid.num_cols * 5)).mapM (fun j => expandCell rm i j) =
        some ((List.range (C * 5)).map fun j =>
          ((riskAt rm.grid (i % C) (j % R) + i / C + j / R - 1) % 9 + 1,
            MinRiskMAX)) := by
    intro i hi
    have hi' : i < 5 * R := by
      have := List.mem_range.mp hi
      omega
    rw [← hC]
    exact mapM_eq_some_map fun j hj => hcell i j hi'
      (by have := List.mem_range.mp hj; omega)
  have houter : (List.range (rm.grid.num_rows * 5)).mapM
      (fun i => (List.range (rm.grid.num_cols * 5)).mapM fun j => expandCell rm i j) =
      some rows := by
    rw [← hR]
    exact mapM_eq_some_map hinner
  have hexp : rm.expand_5x = RiskMap.new ⟨rows⟩ := by
    unfold RiskMap.expand_5x
    rw [houter]
    rfl
  obtain ⟨m, hm⟩ : ∃ m, R * 5 = m + 1 := ⟨R * 5 - 1, by omega⟩
  set row0 := (List.range (C * 5)).map (fun j =>
    ((riskAt rm.grid (0 % C) (j % R) + 0 / C + j / R - 1) % 9 + 1, MinRiskMAX))
    with hrow0def
  obtain ⟨rest, hconsEq⟩ : ∃ rest, rows = row0 :: rest := by
    rw [hrows, hm, List.range_succ_eq_map, List.map_cons]
    exact ⟨_, rfl⟩
  have hrows_len : rows.length = R * 5 := by
    rw [hrows]
    simp
  have hrow0_len : row0.length = C * 5 := by
    rw [hrow0def]
    simp
  have hrowI : ∀ i, i < R * 5 → rows.get? i = some ((List.range (C * 5)).map fun j =>
      ((riskAt rm.grid (i % C) (j % R) + i / C + j / R - 1) % 9 + 1, MinRiskMAX)) := by
    intro i hi
    rw [hrows]
    exact get?_map_range _ hi
  have hrowlen : ∀ row ∈ rows, row.length = C * 5 := by
    intro row hrow
    rw [hrows] at hrow
    obtain ⟨i, -, rfl⟩ := List.mem_map.mp hrow
    simp
  have hcols' : (⟨rows⟩ : UnsizedGrid Cell).num_cols = C * 5 := by
    show (rows.headD []).length = C * 5
    rw [hconsEq]
    exact hrow0_len
  have hrows' : (⟨rows⟩ : UnsizedGrid Cell).num_rows = R * 5 := hrows_len
  have hrect' : (⟨rows⟩ : UnsizedGrid Cell).Rect := by
    intro row hrow
    rw [hcols']
    exact hrowlen row hrow
  have hvalid0 : ValidPos (⟨rows⟩ : UnsizedGrid Cell) ⟨0, 0⟩ := by
    unfold ValidPos
    dsimp only
    rw [hcols', hrows']
    refine ⟨le_refl _, le_refl _, by omega, by omega⟩
  obtain ⟨v, hvl, hvget⟩ := get_of_valid hrect' hvalid0
  have hv00 : v = ((riskAt rm.grid (0 % C) (0 % R) + 0 / C + 0 / R - 1) % 9 + 1,
      MinRiskMAX) := by
    have h0 : rows.get? 0 = some row0 := by
      rw [hconsEq]
      rfl
    have h00 : row0.get? 0 = some ((riskAt rm.grid (0 % C) (0 % R) + 0 / C + 0 / R - 1)
        % 9 + 1, MinRiskMAX) := by
      rw [hrow0def]
      exact get?_map_range _ (by omega)
    have hvl' : (rows.get? 0).bind (fun row => row.get? 0) = some v := hvl
    rw [h0, Option.some_bind, h00] at hvl'
    exact (Option.some.injEq _ _).mp hvl' |>.symm
  have hnew : RiskMap.new ⟨rows⟩ = some ⟨(⟨rows⟩ : UnsizedGrid Cell).setCell ⟨0, 0⟩
      ((riskAt rm.grid (0 % C) (0 % R) + 0 / C + 0 / R - 1) % 9 + 1, 0)⟩ := by
    unfold RiskMap.new
    rw [hvget, hv00]
  -- the final grid
  refine ⟨⟨(⟨rows⟩ : UnsizedGrid Cell).setCell ⟨0, 0⟩
    ((riskAt rm.grid (0 % C) (0 % R) + 0 / C + 0 / R - 1) % 9 + 1, 0)⟩,
    by rw [hexp, hnew], ?_, ?_, ?_⟩
  · show ((rows.set 0 _).length) = 5 * rm.grid.num_rows
    rw [List.length_set, hrows_len]
    omega
  · rw [hconsEq]
    unfold UnsizedGrid.num_cols UnsizedGrid.setCell
    dsimp only
    simp only [Int.toNat_zero]
    rw [List.getD_cons_zero, List.set_cons_zero, List.headD_cons, List.length_set,
      hrow0_len]
    omega
  · intro x y hx hy
    have hform : riskAt (UnsizedGrid.setCell ⟨rows⟩ ⟨0, 0⟩
        ((riskAt rm.grid (0 % C) (0 % R) + 0 / C + 0 / R - 1) % 9 + 1, 0)) x y =
        (riskAt rm.grid (x % C) (y % R) + x / C + y / R - 1) % 9 + 1 := by
      unfold riskAt UnsizedGrid.setCell
      simp only [Int.toNat_ofNat, Int.toNat_zero]
      rcases Nat.eq_zero_or_pos x with hx0 | hxpos
      · subst hx0
        rw [hconsEq, List.getD_cons_zero, List.set_cons_zero, List.get?_cons_zero,
          Option.some_bind]
        rcases Nat.eq_zero_or_pos y with hy0 | hypos
        · subst hy0
          rw [List.get?_set_eq_of_lt _ (by rw [hrow0_len]; omega)]
          rfl
        · rw [List.get?_set_ne _ _ (by omega)]
          have hmr := get?_map_range (n := C * 5) (fun j =>
            ((riskAt rm.grid (0 % C) (j % R) + 0 / C + j / R - 1) % 9 + 1,
              MinRiskMAX)) (show y < C * 5 by omega)
          rw [← hrow0def] at hmr
          rw [hmr]
          rfl
      · rw [List.get?_set_ne _ _ (by omega)]
        rw [hrowI x (by omega)]
        rw [Option.some_bind]
        have := get?_map_range (n := C * 5) (fun j =>
          ((riskAt rm.grid (x % C) (j % R) + x / C + j / R - 1) % 9 + 1,
            MinRiskMAX)) (show y < C * 5 by omega)
        rw [this]
        rfl
    refine ⟨hform, ?_, ?_⟩
    · rw [hform]
      omega
    · rw [hform]
      have : (riskAt rm.grid (x % C) (y % R) + x / C + y / R - 1) % 9 < 9 :=
        Nat.mod_lt _ (by omega)
      omega

/-- Witness for the amended C2 at the concrete square map `[[8]]`. -/
theorem expand_5x_formula_witness :
    ∃ rm', (RiskMap.mk ⟨[[(8, 0)]]⟩).expand_5x = some rm' ∧
      rm'.grid.num_rows = 5 * (RiskMap.mk ⟨[[(8, 0)]]⟩).grid.num_rows ∧
      rm'.grid.num_cols = 5 * (RiskMap.mk ⟨[[(8, 0)]]⟩).grid.num_cols ∧
      ∀ x y, x < 5 * (RiskMap.mk ⟨[[(8, 0)]]⟩).grid.num_rows →
        y < 5 * (RiskMap.mk ⟨[[(8, 0)]]⟩).grid.num_cols →
        riskAt rm'.grid x y =
          (riskAt (RiskMap.mk ⟨[[(8, 0)]]⟩).grid
              (x % (RiskMap.mk ⟨[[(8, 0)]]⟩).grid.num_cols)
              (y % (RiskMap.mk ⟨[[(8, 0)]]⟩).grid.num_rows) +
            x / (RiskMap.mk ⟨[[(8, 0)]]⟩).grid.num_cols +
            y / (RiskMap.mk ⟨[[(8, 0)]]⟩).grid.num_rows - 1) % 9 + 1 ∧
        1 ≤ riskAt rm'.grid x y ∧ riskAt rm'.grid x y ≤ 9 :=
  expand_5x_formula (RiskMap.mk ⟨[[(8, 0)]]⟩) (by decide) (by decide) (by decide)
    (by decide)

/-! ### Cell-level update lemmas -/

section SetCellLemmas

variable {T : Type}

theorem num_rows_setCell (g : UnsizedGrid T) (p : Coordinate) (v : T) :
    (g.setCell p v).num_rows = g.num_rows := by
  unfold UnsizedGrid.setCell UnsizedGrid.num_rows
  exact List.length_set ..

theorem num_cols_setCell (g : UnsizedGrid T) (p : Coordinate) (v : T) :
    (g.setCell p v).num_cols = g.num_cols := by
  unfold UnsizedGrid.setCell UnsizedGrid.num_cols
  cases hm : g.matrix with
  | nil => rfl
  | cons r t =>
    cases hi : p.i.toNat with
    | zero =>
      simp only [List.set_cons_zero, List.headD_cons, List.getD_cons_zero]
      exact List.length_set ..
    | succ k =>
      simp only [List.set_cons_succ, List.headD_cons]

theorem lookup_setCell_self (g : UnsizedGrid T) (hrect : g.Rect) {p : Coordinate}
    (hv : ValidPos g p) (v : T) :
    ((g.setCell p v).matrix.get? p.i.toNat).bind (fun row => row.get? p.j.toNat) =
      some v := by
  obtain ⟨h1, h2, h3, h4⟩ := hv
  have hi : p.i.toNat < g.matrix.length := by
    have : (g.num_rows : Int) = (g.matrix.length : Int) := by
      simp [UnsizedGrid.num_rows]
    omega
  unfold UnsizedGrid.setCell
  simp only
  rw [List.get?_set_eq_of_lt _ hi, Option.some_bind]
  obtain ⟨row, hrow⟩ : ∃ row, g.matrix.get? p.i.toNat = some row :=
    ⟨_, List.get?_eq_get hi⟩
  have hgetD : g.matrix.getD p.i.toNat [] = row := by
    rw [List.getD_eq_getD_get?, hrow]
    rfl
  rw [hgetD]
  have hj : p.j.toNat < row.length := by
    rw [hrect row (List.get?_mem hrow)]
    omega
  rw [List.get?_set_eq_of_lt _ hj]

theorem lookup_setCell_other (g : UnsizedGrid T) (p : Coordinate) (v : T)
    {qi qj : Nat} (hne : ¬(qi = p.i.toNat ∧ qj = p.j.toNat)) :
    ((g.setCell p v).matrix.get? qi).bind (fun row => row.get? qj) =
      (g.matrix.get? qi).bind (fun row => row.get? qj) := by
  unfold UnsizedGrid.setCell
  simp only
  by_cases hqi : qi = p.i.toNat
  · subst hqi
    have hqj : qj ≠ p.j.toNat := fun h => hne ⟨rfl, h⟩
    rw [List.get?_set_eq _ _ _]
    cases hrow : g.matrix.get? p.i.toNat with
    | none => rfl
    | some row =>
      simp only [Option.map_eq_map, Option.map_some', Option.some_bind]
      have hgetD : g.matrix.getD p.i.toNat [] = row := by
        rw [List.getD_eq_getD_get?, hrow]
        rfl
      rw [hgetD, List.get?_set_ne _ _ (fun h => hqj h.symm)]
  · rw [List.get?_set_ne _ _ (fun h => hqi h.symm)]

theorem rect_setCell (g : UnsizedGrid T) (hrect : g.Rect) {p : Coordinate}
    (hv : ValidPos g p) (v : T) : (g.setCell p v).Rect := by
  intro row hrow
  rw [num_cols_setCell] at *
  obtain ⟨h1, h2, h3, h4⟩ := hv
  have hi : p.i.toNat < g.matrix.length := by
    have : (g.num_rows : Int) = (g.matrix.length : Int) := by
      simp [UnsizedGrid.num_rows]
    omega
  unfold UnsizedGrid.setCell at hrow
  simp only at hrow
  rcases List.mem_or_eq_of_mem_set hrow with hmem | rfl
  · exact hrect row hmem
  · rw [List.length_set]
    obtain ⟨row₀, hrow₀⟩ : ∃ r, g.matrix.get? p.i.toNat = some r :=
      ⟨_, List.get?_eq_get hi⟩
    have hgetD : g.matrix.getD p.i.toNat [] = row₀ := by
      rw [List.getD_eq_getD_get?, hrow₀]
      rfl
    rw [hgetD]
    exact hrect row₀ (List.get?_mem hrow₀)

end SetCellLemmas

/-! ### Reading cells of the evolving grid -/

/-- The evolving state of `lowest_risk` keeps the geometry and the risks of
the original grid; only best-known values change. -/
def GridCompat (g₀ g : UnsizedGrid Cell) : Prop :=
  g.Rect ∧ g.num_rows = g₀.num_rows ∧ g.num_cols = g₀.num_cols ∧
    ∀ i j, riskAt g i j = riskAt g₀ i j

theorem gridCompat_refl {g₀ : UnsizedGrid Cell} (hrect : g₀.Rect) :
    GridCompat g₀ g₀ :=
  ⟨hrect, rfl, rfl, fun _ _ => rfl⟩

theorem validPos_compat {g₀ g : UnsizedGrid Cell} (hc : GridCompat g₀ g)
    (p : Coordinate) : ValidPos g p ↔ ValidPos g₀ p := by
  unfold ValidPos
  rw [hc.2.1, hc.2.2.1]

theorem bestAt_setCell_self {g : UnsizedGrid Cell} (hrect : g.Rect)
    {p : Coordinate} (hv : ValidPos g p) (v : Cell) :
    bestAt (g.setCell p v) p.i.toNat p.j.toNat = v.2 := by
  unfold bestAt
  rw [lookup_setCell_self g hrect hv v]
  rfl

theorem bestAt_setCell_other {g : UnsizedGrid Cell} {p : Coordinate} (v : Cell)
    {qi qj : Nat} (hne : ¬(qi = p.i.toNat ∧ qj = p.j.toNat)) :
    bestAt (g.setCell p v) qi qj = bestAt g qi qj := by
  unfold bestAt
  rw [lookup_setCell_other g p v hne]

theorem riskAt_setCell_self {g : UnsizedGrid Cell} (hrect : g.Rect)
    {p : Coordinate} (hv : ValidPos g p) (v : Cell) :
    riskAt (g.setCell p v) p.i.toNat p.j.toNat = v.1 := by
  unfold riskAt
  rw [lookup_setCell_self g hrect hv v]
  rfl

theorem riskAt_setCell_other {g : UnsizedGrid Cell} {p : Coordinate} (v : Cell)
    {qi qj : Nat} (hne : ¬(qi = p.i.toNat ∧ qj = p.j.toNat)) :
    riskAt (g.setCell p v) qi qj = riskAt g qi qj := by
  unfold riskAt
  rw [lookup_setCell_other g p v hne]

/-- Reading a valid cell of a compatible grid yields the original risk and
the current best-known cost. -/
theorem get_compat_valid {g₀ g : UnsizedGrid Cell} (hc : GridCompat g₀ g)
    {p : Coordinate} (hv : ValidPos g₀ p) :
    g.get p = some (some (riskAt g₀ p.i.toNat p.j.toNat,
      bestAt g p.i.toNat p.j.toNat)) := by
  have hvg : ValidPos g p := (validPos_compat hc p).mpr hv
  obtain ⟨v, hvl, hvget⟩ := get_of_valid hc.1 hvg
  have hvl' : (g.matrix.get? p.i.toNat).bind (fun row => row.get? p.j.toNat) =
      some v := hvl
  have hv1 : v.1 = riskAt g₀ p.i.toNat p.j.toNat := by
    rw [← hc.2.2.2]
    unfold riskAt
    rw [hvl']
    rfl
  have hv2 : v.2 = bestAt g p.i.toNat p.j.toNat := by
    unfold bestAt
    rw [hvl']
    rfl
  rw [hvget, ← hv1, ← hv2]

theorem gridCompat_setCell {g₀ g : UnsizedGrid Cell} (hc : GridCompat g₀ g)
    {p : Coordinate} (hv : ValidPos g₀ p) (b : Nat) :
    GridCompat g₀ (g.setCell p (riskAt g₀ p.i.toNat p.j.toNat, b)) := by
  have hvg : ValidPos g p := (validPos_compat hc p).mpr hv
  refine ⟨rect_setCell g hc.1 hvg _, ?_, ?_, ?_⟩
  · rw [num_rows_setCell]
    exact hc.2.1
  · rw [num_cols_setCell]
    exact hc.2.2.1
  · intro i j
    by_cases hij : i = p.i.toNat ∧ j = p.j.toNat
    · obtain ⟨rfl, rfl⟩ := hij
      rw [riskAt_setCell_self hc.1 hvg]
    · rw [riskAt_setCell_other _ hij]
      exact hc.2.2.2 i j

/-! ### Sum-of-best-known lemmas (the termination potential) -/

theorem sum_set_nat (l : List Nat) (i : Nat) (a : Nat) (h : i < l.length) :
    (l.set i a).sum + l.getD i 0 = l.sum + a := by
  induction l generalizing i with
  | nil => simp at h
  | cons x xs ih =>
    cases i with
    | zero => simp [List.set_cons_zero, Nat.add_comm, Nat.add_left_comm]
    | succ k =>
      simp only [List.set_cons_succ, List.sum_cons, List.getD_cons_succ]
      have := ih k (by simpa using h)
      omega

theorem sumB_setCell {g : UnsizedGrid Cell} (hrect : g.Rect) {p : Coordinate}
    (hv : ValidPos g p) (v : Cell) :
    sumB (g.setCell p v) + bestAt g p.i.toNat p.j.toNat = sumB g + v.2 := by
  obtain ⟨h1, h2, h3, h4⟩ := hv
  have hi : p.i.toNat < g.matrix.length := by
    have : (g.num_rows : Int) = (g.matrix.length : Int) := by
      simp [UnsizedGrid.num_rows]
    omega
  obtain ⟨row, hrow⟩ : ∃ r, g.matrix.get? p.i.toNat = some r :=
    ⟨_, List.get?_eq_get hi⟩
  have hgetD : g.matrix.getD p.i.toNat [] = row := by
    rw [List.getD_eq_getD_get?, hrow]
    rfl
  have hj : p.j.toNat < row.length := by
    rw [hrect row (List.get?_mem hrow)]
    omega
  have hbest : bestAt g p.i.toNat p.j.toNat = (row.getD p.j.toNat (0, 0)).2 := by
    unfold bestAt
    rw [hrow, Option.some_bind, List.getD_eq_getD_get?]
  unfold sumB UnsizedGrid.setCell
  simp only [hgetD]
  rw [List.map_set]
  have houter := sum_set_nat (g.matrix.map fun r => (r.map fun c => c.2).sum)
    p.i.toNat ((row.set p.j.toNat v).map fun c => c.2).sum
    (by rw [List.length_map]; exact hi)
  have hgetDmap : (g.matrix.map fun r => (r.map fun c => c.2).sum).getD p.i.toNat 0 =
      (row.map fun c => c.2).sum := by
    rw [List.getD_eq_getD_get?, List.get?_map, hrow]
    rfl
  rw [hgetDmap] at houter
  have hinner : ((row.set p.j.toNat v).map fun c => c.2).sum + (row.getD p.j.toNat (0, 0)).2 =
      (row.map fun c => c.2).sum + v.2 := by
    rw [List.map_set]
    have := sum_set_nat (row.map fun c => c.2) p.j.toNat v.2
      (by rw [List.length_map]; exact hj)
    have hgq : (row.map fun c => c.2).getD p.j.toNat 0 = (row.getD p.j.toNat (0, 0)).2 := by
      rw [List.getD_eq_getD_get?, List.get?_map, List.getD_eq_getD_get?]
      cases row.get? p.j.toNat <;> rfl
    rw [hgq] at this
    exact this
  rw [hbest]
  omega

/-! ### Heap (priority-queue) lemmas -/

theorem entryLe_total (a b : HeapEntry) : entryLe a b = true ∨ entryLe b a = true := by
  unfold entryLe
  simp only [Bool.or_eq_true, Bool.and_eq_true, decide_eq_true_eq]
  omega

theorem entryLe_trans {a b c : HeapEntry} (h1 : entryLe a b = true)
    (h2 : entryLe b c = true) : entryLe a c = true := by
  unfold entryLe at *
  simp only [Bool.or_eq_true, Bool.and_eq_true, decide_eq_true_eq] at *
  omega

theorem entryLe_key {a b : HeapEntry} (h : entryLe a b = true) : a.1 ≤ b.1 := by
  unfold entryLe at h
  simp only [Bool.or_eq_true, Bool.and_eq_true, decide_eq_true_eq] at h
  omega

theorem heapMin_none_iff (l : List HeapEntry) : heapMin l = none ↔ l = [] := by
  cases l with
  | nil => simp [heapMin]
  | cons x xs => simp [heapMin]

theorem entryLe_refl (a : HeapEntry) : entryLe a a = true := by
  simp [entryLe]

theorem heapMin_mem {l : List HeapEntry} {e : HeapEntry} (h : heapMin l = some e) :
    e ∈ l := by
  induction l generalizing e with
  | nil => simp [heapMin] at h
  | cons x xs ih =>
    simp only [heapMin, Option.some.injEq] at h
    cases hm : heapMin xs with
    | none =>
      rw [hm] at h
      simp only at h
      subst h
      exact List.mem_cons_self x xs
    | some m =>
      rw [hm] at h
      simp only at h
      split at h
      · subst h
        exact List.mem_cons_self x xs
      · subst h
        exact List.mem_cons_of_mem x (ih hm)

theorem heapMin_le {l : List HeapEntry} {e : HeapEntry} (h : heapMin l = some e) :
    ∀ x ∈ l, entryLe e x = true := by
  induction l generalizing e with
  | nil => simp [heapMin] at h
  | cons a xs ih =>
    simp only [heapMin, Option.some.injEq] at h
    cases hm : heapMin xs with
    | none =>
      rw [hm] at h
      simp only at h
      rw [heapMin_none_iff] at hm
      subst hm
      intro y hy
      simp only [List.mem_singleton] at hy
      subst hy
      subst h
      exact entryLe_refl _
    | some m =>
      rw [hm] at h
      simp only at h
      intro y hy
      rcases List.mem_cons.mp hy with rfl | hy'
      · split at h
        · subst h
          exact entryLe_refl _
        · rename_i hnle
          subst h
          rcases entryLe_total y m with ht | ht
          · exact absurd ht hnle
          · exact ht
      · have hmy := ih hm y hy'
        split at h
        · rename_i hle
          subst h
          exact entryLe_trans hle hmy
        · subst h
          exact hmy

/-! ### Walks and shortest-path costs (specification side of C1) -/

/-- `b` is one cardinal step from `a`. -/
def Adjacent (a b : Coordinate) : Prop :=
  ∃ d : Direction, b = a.addDir d

/-- A walk through the in-bounds cells of `g`, from the top-left cell to
`c`, moving only in the four cardinal directions. -/
def WalkTo (g : UnsizedGrid Cell) (c : Coordinate) (w : List Coordinate) : Prop :=
  w.head? = some ⟨0, 0⟩ ∧ w.getLast? = some c ∧
    List.Chain' Adjacent w ∧ ∀ p ∈ w, ValidPos g p

/-- The cost of a walk: the sum of the risks of the visited cells,
excluding the start cell. -/
def walkCost (g : UnsizedGrid Cell) (w : List Coordinate) : Nat :=
  (w.tail.map fun p => riskAt g p.i.toNat p.j.toNat).sum

/-- The set of achievable walk costs from the top-left cell to `c`. -/
def costsTo (g : UnsizedGrid Cell) (c : Coordinate) : Set Nat :=
  { n | ∃ w, WalkTo g c w ∧ walkCost g w = n }

/-- Every cost in 1..=9. -/
def CostsOK (g : UnsizedGrid Cell) : Prop :=
  ∀ p : Coordinate, ValidPos g p →
    1 ≤ riskAt g p.i.toNat p.j.toNat ∧ riskAt g p.i.toNat p.j.toNat ≤ 9

section WalkLemmas

variable {g : UnsizedGrid Cell}

theorem validPos_start (hrow : 0 < g.num_rows) (hcol : 0 < g.num_cols) :
    ValidPos g ⟨0, 0⟩ := by
  unfold ValidPos
  dsimp only
  omega

theorem walkTo_start (hrow : 0 < g.num_rows) (hcol : 0 < g.num_cols) :
    WalkTo g ⟨0, 0⟩ [⟨0, 0⟩] := by
  refine ⟨rfl, rfl, List.chain'_singleton _, ?_⟩
  intro p hp
  simp only [List.mem_singleton] at hp
  subst hp
  exact validPos_start hrow hcol

theorem sInf_costsTo_start (hrow : 0 < g.num_rows) (hcol : 0 < g.num_cols) :
    sInf (costsTo g ⟨0, 0⟩) = 0 := by
  rw [Nat.sInf_eq_zero]
  left
  exact ⟨[⟨0, 0⟩], walkTo_start hrow hcol, rfl⟩

theorem walkTo_ne_nil {c : Coordinate} {w : List Coordinate}
    (hw : WalkTo g c w) : w ≠ [] := by
  intro h
  subst h
  exact absurd hw.1 (by simp)

theorem walkTo_snoc {v u : Coordinate} {w : List Coordinate}
    (hw : WalkTo g v w) (hadj : Adjacent v u) (hu : ValidPos g u) :
    WalkTo g u (w ++ [u]) ∧
      walkCost g (w ++ [u]) = walkCost g w + riskAt g u.i.toNat u.j.toNat := by
  obtain ⟨hhead, hlast, hchain, hvalid⟩ := hw
  have hne : w ≠ [] := by
    intro h
    subst h
    simp at hhead
  constructor
  · refine ⟨?_, ?_, ?_, ?_⟩
    · rw [List.head?_append_of_ne_nil _ hne]
      exact hhead
    · simp [List.getLast?_concat]
    · rw [List.chain'_append]
      refine ⟨hchain, List.chain'_singleton _, ?_⟩
      intro x hx y hy
      simp only [List.head?_cons, Option.mem_def, Option.some.injEq] at hy
      subst hy
      rw [hlast] at hx
      simp only [Option.mem_def, Option.some.injEq] at hx
      subst hx
      exact hadj
    · intro p hp
      rcases List.mem_append.mp hp with hp | hp
      · exact hvalid p hp
      · simp only [List.mem_singleton] at hp
        subst hp
        exact hu
  · unfold walkCost
    rw [List.tail_append_of_ne_nil hne, List.map_append, List.sum_append]
    simp

theorem exists_walkTo (hrow : 0 < g.num_rows) (hcol : 0 < g.num_cols) :
    ∀ n (p : Coordinate), ValidPos g p → p.i.toNat + p.j.toNat = n →
      ∃ w, WalkTo g p w := by
  intro n
  induction n using Nat.strong_induction_on with
  | _ n ih =>
    intro p hp hn
    obtain ⟨h1, h2, h3, h4⟩ := hp
    by_cases hz : p.i.toNat = 0 ∧ p.j.toNat = 0
    · have hps : p = ⟨0, 0⟩ := by
        have hi : p.i = 0 := by omega
        have hj : p.j = 0 := by omega
        cases p
        simp_all
      subst hps
      exact ⟨[⟨0, 0⟩], walkTo_start hrow hcol⟩
    · rcases Nat.lt_or_ge 0 p.j.toNat with hj | hj
      · -- step in from the west
        have hq : ValidPos g ⟨p.i, p.j - 1⟩ := by
          unfold ValidPos
          dsimp only
          omega
        obtain ⟨w, hw⟩ := ih (p.i.toNat + (p.j - 1).toNat) (by omega)
          ⟨p.i, p.j - 1⟩ hq rfl
        have hadj : Adjacent ⟨p.i, p.j - 1⟩ p := by
          refine ⟨Direction.East, ?_⟩
          unfold Coordinate.addDir Direction.offset
          dsimp only
          cases p
          simp only [Coordinate.mk.injEq]
          omega
        exact ⟨w ++ [p], (walkTo_snoc hw hadj ⟨h1, h2, h3, h4⟩).1⟩
      · -- p.j.toNat = 0, so step in from the north
        have hi : 0 < p.i.toNat := by omega
        have hq : ValidPos g ⟨p.i - 1, p.j⟩ := by
          unfold ValidPos
          dsimp only
          omega
        obtain ⟨w, hw⟩ := ih ((p.i - 1).toNat + p.j.toNat) (by omega)
          ⟨p.i - 1, p.j⟩ hq rfl
        have hadj : Adjacent ⟨p.i - 1, p.j⟩ p := by
          refine ⟨Direction.South, ?_⟩
          unfold Coordinate.addDir Direction.offset
          dsimp only
          cases p
          simp only [Coordinate.mk.injEq]
          omega
        exact ⟨w ++ [p], (walkTo_snoc hw hadj ⟨h1, h2, h3, h4⟩).1⟩

theorem costsTo_nonempty (hrow : 0 < g.num_rows) (hcol : 0 < g.num_cols)
    {p : Coordinate} (hp : ValidPos g p) : (costsTo g p).Nonempty := by
  obtain ⟨w, hw⟩ := exists_walkTo hrow hcol (p.i.toNat + p.j.toNat) p hp rfl
  exact ⟨walkCost g w, w, hw, rfl⟩

theorem sInf_costsTo_mem (hrow : 0 < g.num_rows) (hcol : 0 < g.num_cols)
    {p : Coordinate} (hp : ValidPos g p) :
    sInf (costsTo g p) ∈ costsTo g p :=
  Nat.sInf_mem (costsTo_nonempty hrow hcol hp)

theorem sInf_costsTo_le {p : Coordinate} {n : Nat} (hn : n ∈ costsTo g p) :
    sInf (costsTo g p) ≤ n :=
  Nat.sInf_le hn

/-- Triangle inequality along one step. -/
theorem sInf_costsTo_triangle (hrow : 0 < g.num_rows) (hcol : 0 < g.num_cols)
    {v u : Coordinate} (hv : ValidPos g v) (hu : ValidPos g u)
    (hadj : Adjacent v u) :
    sInf (costsTo g u) ≤ sInf (costsTo g v) + riskAt g u.i.toNat u.j.toNat := by
  obtain ⟨w, hw, hcost⟩ := sInf_costsTo_mem hrow hcol hv
  obtain ⟨hw', hcost'⟩ := walkTo_snoc hw hadj hu
  exact le_trans (sInf_costsTo_le ⟨w ++ [u], hw', rfl⟩) (by rw [hcost', hcost])

/-- The staircase bound: the shortest cost to `p` is at most `9·(i+j)`. -/
theorem sInf_costsTo_bound (hrow : 0 < g.num_rows) (hcol : 0 < g.num_cols)
    (hcosts : CostsOK g) :
    ∀ n (p : Coordinate), ValidPos g p → p.i.toNat + p.j.toNat = n →
      sInf (costsTo g p) ≤ 9 * (p.i.toNat + p.j.toNat) := by
  intro n
  induction n using Nat.strong_induction_on with
  | _ n ih =>
    intro p hp hn
    obtain ⟨h1, h2, h3, h4⟩ := hp
    by_cases hz : p.i.toNat = 0 ∧ p.j.toNat = 0
    · have hps : p = ⟨0, 0⟩ := by
        have hi : p.i = 0 := by omega
        have hj : p.j = 0 := by omega
        cases p
        simp_all
      subst hps
      rw [sInf_costsTo_start hrow hcol]
      omega
    · rcases Nat.lt_or_ge 0 p.j.toNat with hj | hj
      · have hq : ValidPos g ⟨p.i, p.j - 1⟩ := by
          unfold ValidPos
          dsimp only
          omega
        have hadj : Adjacent ⟨p.i, p.j - 1⟩ p := by
          refine ⟨Direction.East, ?_⟩
          unfold Coordinate.addDir Direction.offset
          dsimp only
          cases p
          simp only [Coordinate.mk.injEq]
          omega
        have htri := sInf_costsTo_triangle hrow hcol hq ⟨h1, h2, h3, h4⟩ hadj
        have hih := ih (p.i.toNat + (p.j - 1).toNat) (by omega)
          ⟨p.i, p.j - 1⟩ hq rfl
        have hrk := (hcosts p ⟨h1, h2, h3, h4⟩).2
        have hq' : (⟨p.i, p.j - 1⟩ : Coordinate).i.toNat +
            (⟨p.i, p.j - 1⟩ : Coordinate).j.toNat = p.i.toNat + p.j.toNat - 1 := by
          dsimp only
          omega
        rw [hq'] at hih
        omega
      · have hi : 0 < p.i.toNat := by omega
        have hq : ValidPos g ⟨p.i - 1, p.j⟩ := by
          unfold ValidPos
          dsimp only
          omega
        have hadj : Adjacent ⟨p.i - 1, p.j⟩ p := by
          refine ⟨Direction.South, ?_⟩
          unfold Coordinate.addDir Direction.offset
          dsimp only
          cases p
          simp only [Coordinate.mk.injEq]
          omega
        have htri := sInf_costsTo_triangle hrow hcol hq ⟨h1, h2, h3, h4⟩ hadj
        have hih := ih ((p.i - 1).toNat + p.j.toNat) (by omega)
          ⟨p.i - 1, p.j⟩ hq rfl
        have hrk := (hcosts p ⟨h1, h2, h3, h4⟩).2
        have hq' : (⟨p.i - 1, p.j⟩ : Coordinate).i.toNat +
            (⟨p.i - 1, p.j⟩ : Coordinate).j.toNat = p.i.toNat + p.j.toNat - 1 := by
          dsimp only
          omega
        rw [hq'] at hih
        omega

/-- Every non-start walk splits off its final step. -/
theorem walkTo_decompose {u : Coordinate} {w : List Coordinate}
    (hw : WalkTo g u w) (hne : u ≠ ⟨0, 0⟩) :
    ∃ v w', WalkTo g v w' ∧ ValidPos g v ∧ Adjacent v u ∧
      walkCost g w = walkCost g w' + riskAt g u.i.toNat u.j.toNat := by
  obtain ⟨hhead, hlast, hchain, hvalid⟩ := hw
  have hwne : w ≠ [] := by
    intro h
    subst h
    simp at hhead
  obtain ⟨w', a, rfl⟩ : ∃ w' a, w = w' ++ [a] := by
    rcases List.eq_nil_or_concat w with h | h
    · exact absurd h hwne
    · obtain ⟨w', a, h⟩ := h
      exact ⟨w', a, by rw [h, List.concat_eq_append]⟩
  obtain rfl : u = a := by
    rw [List.getLast?_concat] at hlast
    exact (Option.some.inj hlast).symm
  have hw'ne : w' ≠ [] := by
    intro h
    subst h
    simp only [List.nil_append, List.head?_cons, Option.some.injEq] at hhead
    exact hne hhead
  obtain ⟨v, hv⟩ : ∃ v, w'.getLast? = some v := by
    cases hl : w'.getLast? with
    | none => exact absurd (List.getLast?_eq_none_iff.mp hl) hw'ne
    | some v => exact ⟨v, rfl⟩
  have hvmem : v ∈ w' := by
    obtain ⟨hex, hveq⟩ := List.mem_getLast?_eq_getLast (x := v) (by rw [hv]; rfl)
    rw [hveq]
    exact List.getLast_mem hex
  rw [List.chain'_append] at hchain
  refine ⟨v, w', ⟨?_, hv, hchain.1, ?_⟩, ?_, ?_, ?_⟩
  · rw [List.head?_append_of_ne_nil _ hw'ne] at hhead
    exact hhead
  · intro p hp
    exact hvalid p (List.mem_append.mpr (Or.inl hp))
  · exact hvalid v (List.mem_append.mpr (Or.inl hvmem))
  · have := hchain.2.2 v (by rw [hv]; rfl) u (by rfl)
    exact this
  · unfold walkCost
    rw [List.tail_append_of_ne_nil hw'ne, List.map_append, List.sum_append]
    simp

/-- The optimal decomposition: every valid non-start cell has a valid
neighbour through which the shortest cost decomposes exactly. -/
theorem sInf_costsTo_decompose (hrow : 0 < g.num_rows) (hcol : 0 < g.num_cols)
    (hcosts : CostsOK g) {u : Coordinate} (hu : ValidPos g u)
    (hne : u ≠ ⟨0, 0⟩) :
    ∃ v, ValidPos g v ∧ Adjacent v u ∧
      sInf (costsTo g u) = sInf (costsTo g v) + riskAt g u.i.toNat u.j.toNat ∧
      sInf (costsTo g v) < sInf (costsTo g u) := by
  obtain ⟨w, hw, hcost⟩ := sInf_costsTo_mem hrow hcol hu
  obtain ⟨v, w', hw', hvv, hadj, hsplit⟩ := walkTo_decompose hw hne
  have hle1 : sInf (costsTo g v) ≤ walkCost g w' := sInf_costsTo_le ⟨w', hw', rfl⟩
  have htri := sInf_costsTo_triangle hrow hcol hvv hu hadj
  have hrk := (hcosts u hu).1
  refine ⟨v, hvv, hadj, ?_, ?_⟩ <;> omega

end WalkLemmas

/-! ### The relaxation fold -/

/-- Best-known cost at a coordinate. -/
def bestAtC (g : UnsizedGrid Cell) (p : Coordinate) : Nat :=
  bestAt g p.i.toNat p.j.toNat

/-- Risk at a coordinate. -/
def riskAtC (g : UnsizedGrid Cell) (p : Coordinate) : Nat :=
  riskAt g p.i.toNat p.j.toNat

/-- Index-pair collision. -/
def SameIdx (p q : Coordinate) : Prop :=
  p.i.toNat = q.i.toNat ∧ p.j.toNat = q.j.toNat

instance (p q : Coordinate) : Decidable (SameIdx p q) := by
  unfold SameIdx
  infer_instance

theorem validPos_sameIdx_inj {T : Type} {g : UnsizedGrid T} {p q : Coordinate}
    (hp : ValidPos g p) (hq : ValidPos g q) (h : SameIdx p q) : p = q := by
  obtain ⟨h1, h2, h3, h4⟩ := hp
  obtain ⟨k1, k2, k3, k4⟩ := hq
  obtain ⟨hi, hj⟩ := h
  have hpi : p.i = q.i := by omega
  have hpj : p.j = q.j := by omega
  cases p
  cases q
  simp only [Coordinate.mk.injEq]
  exact ⟨hpi, hpj⟩

theorem bestAtC_setCell_self {g : UnsizedGrid Cell} (hrect : g.Rect)
    {p : Coordinate} (hv : ValidPos g p) (v : Cell) :
    bestAtC (g.setCell p v) p = v.2 :=
  bestAt_setCell_self hrect hv v

theorem bestAtC_setCell_other {g : UnsizedGrid Cell} {p q : Coordinate} (v : Cell)
    (hne : ¬ SameIdx q p) : bestAtC (g.setCell p v) q = bestAtC g q :=
  bestAt_setCell_other v hne

/-- The four direction images of a coordinate are pairwise distinct. -/
theorem direction_images_nodup (c : Coordinate) :
    (Direction.direction_list.map c.addDir).Nodup := by
  have h : Direction.direction_list.map c.addDir =
      [⟨c.i + -1, c.j + 0⟩, ⟨c.i + 0, c.j + 1⟩, ⟨c.i + 1, c.j + 0⟩,
        ⟨c.i + 0, c.j + -1⟩] := by
    simp [Direction.direction_list, Coordinate.addDir, Direction.offset]
  rw [h]
  simp only [List.nodup_cons, List.mem_cons, List.mem_singleton,
    List.not_mem_nil, List.nodup_nil, Coordinate.mk.injEq, not_or, or_false,
    and_true, true_and, not_false_eq_true]
  omega

/-- The effect of a single relaxation. -/
theorem relaxDir_spec {g₀ : UnsizedGrid Cell} (acc : Nat) (c : Coordinate)
    {t : DState} (hcompat : GridCompat g₀ t.grid) (d : Direction) :
    (¬ ValidPos g₀ (c.addDir d) → relaxDir acc c t d = some t) ∧
    (ValidPos g₀ (c.addDir d) →
      ((acc + riskAtC g₀ (c.addDir d)) % 65536 < bestAtC t.grid (c.addDir d) →
        relaxDir acc c t d = some ⟨t.grid.setCell (c.addDir d)
            (riskAtC g₀ (c.addDir d), (acc + riskAtC g₀ (c.addDir d)) % 65536),
          t.heap ++ [((acc + riskAtC g₀ (c.addDir d)) % 65536, c.addDir d)]⟩) ∧
      (¬ (acc + riskAtC g₀ (c.addDir d)) % 65536 < bestAtC t.grid (c.addDir d) →
        relaxDir acc c t d = some t)) := by
  constructor
  · intro hnv
    have hg : t.grid.get (c.addDir d) = some none := by
      apply get_of_invalid
      rw [validPos_compat hcompat]
      exact hnv
    simp [relaxDir, hg]
  · intro hv
    have hget := get_compat_valid hcompat hv
    constructor
    · intro himp
      simp only [riskAtC, bestAtC] at himp ⊢
      simp only [relaxDir, hget]
      rw [if_pos himp]
    · intro himp
      simp only [riskAtC, bestAtC] at himp
      simp only [relaxDir, hget]
      rw [if_neg himp]

/-- Full specification of the four-direction relaxation fold. -/
theorem relax_fold_spec {g₀ : UnsizedGrid Cell} (acc : Nat) (c : Coordinate) :
    ∀ (ds : List Direction) (t : DState), GridCompat g₀ t.grid →
      (ds.map c.addDir).Nodup →
      ∃ t', ds.foldlM (relaxDir acc c) t = some t' ∧
        GridCompat g₀ t'.grid ∧
        (∀ q : Coordinate,
          (∀ d ∈ ds, ValidPos g₀ (c.addDir d) → ¬ SameIdx q (c.addDir d)) →
          bestAtC t'.grid q = bestAtC t.grid q) ∧
        (∀ d ∈ ds, ValidPos g₀ (c.addDir d) →
          (bestAtC t'.grid (c.addDir d) = bestAtC t.grid (c.addDir d) ∨
            (bestAtC t'.grid (c.addDir d) = (acc + riskAtC g₀ (c.addDir d)) % 65536 ∧
              (acc + riskAtC g₀ (c.addDir d)) % 65536 < bestAtC t.grid (c.addDir d) ∧
              ((acc + riskAtC g₀ (c.addDir d)) % 65536, c.addDir d) ∈ t'.heap)) ∧
          bestAtC t'.grid (c.addDir d) ≤ (acc + riskAtC g₀ (c.addDir d)) % 65536) ∧
        (∃ pushed, t'.heap = t.heap ++ pushed ∧
          ∀ e ∈ pushed, ∃ d ∈ ds, e.2 = c.addDir d ∧ ValidPos g₀ e.2 ∧
            e.1 = (acc + riskAtC g₀ e.2) % 65536 ∧
            e.1 < bestAtC t.grid e.2 ∧ e.1 = bestAtC t'.grid e.2) ∧
        5 * sumB t'.grid + t'.heap.length ≤ 5 * sumB t.grid + t.heap.length := by
  intro ds
  induction ds with
  | nil =>
    intro t hcompat _
    refine ⟨t, rfl, hcompat, fun q _ => rfl, by simp, ⟨[], by simp, by simp⟩,
      le_refl _⟩
  | cons d ds ih =>
    intro t hcompat hnodup
    have hnodup' : (ds.map c.addDir).Nodup := (List.nodup_cons.mp
      (by simpa using hnodup)).2
    have hdnotin : c.addDir d ∉ ds.map c.addDir := (List.nodup_cons.mp
      (by simpa using hnodup)).1
    have hspec := relaxDir_spec acc c (t := t) hcompat d
    by_cases hv : ValidPos g₀ (c.addDir d)
    · by_cases himp : (acc + riskAtC g₀ (c.addDir d)) % 65536 <
        bestAtC t.grid (c.addDir d)
      · -- improving relaxation: write the cell and push
        have hstep := (hspec.2 hv).1 himp
        set w := c.addDir d with hw
        set new := (acc + riskAtC g₀ w) % 65536 with hnew
        set t₁ : DState := ⟨t.grid.setCell w (riskAtC g₀ w, new),
          t.heap ++ [(new, w)]⟩ with ht₁
        have hvw : ValidPos t.grid w := (validPos_compat hcompat w).mpr hv
        have hcompat₁ : GridCompat g₀ t₁.grid := by
          exact gridCompat_setCell hcompat hv new
        obtain ⟨t', hfold, hcompat', huntouched, hrelaxed, ⟨pushed, hheap, hpushed⟩,
          hmu⟩ := ih t₁ hcompat₁ hnodup'
        have hb₁w : bestAtC t₁.grid w = new := by
          exact bestAtC_setCell_self hcompat.1 hvw _
        have hb₁other : ∀ q : Coordinate, ¬ SameIdx q w →
            bestAtC t₁.grid q = bestAtC t.grid q := by
          intro q hq
          exact bestAtC_setCell_other _ hq
        have hwuntouched : bestAtC t'.grid w = new := by
          rw [huntouched w ?_, hb₁w]
          intro d' hd' hv' hsame
          have : w = c.addDir d' := validPos_sameIdx_inj hv hv' hsame
          exact hdnotin (this ▸ List.mem_map.mpr ⟨d', hd', rfl⟩)
        refine ⟨t', ?_, hcompat', ?_, ?_, ?_, ?_⟩
        · rw [List.foldlM_cons, hstep]
          exact hfold
        · intro q hq
          have hq' : ¬ SameIdx q w := hq d (List.mem_cons_self d ds) hv
          rw [huntouched q (fun d' hd' => hq d' (List.mem_cons_of_mem d hd')),
            hb₁other q hq']
        · intro d' hd' hv'
          rcases List.mem_cons.mp hd' with rfl | hd''
          · refine ⟨Or.inr ⟨hwuntouched, himp, ?_⟩, ?_⟩
            · rw [hheap, ht₁]
              simp
            · rw [hwuntouched]
          · have hne : ¬ SameIdx (c.addDir d') w := by
              intro hsame
              have : c.addDir d' = w := validPos_sameIdx_inj hv' hv hsame
              exact hdnotin (this ▸ List.mem_map.mpr ⟨d', hd'', rfl⟩)
            have heq := hb₁other (c.addDir d') hne
            obtain ⟨hdisj, hle⟩ := hrelaxed d' hd'' hv'
            rw [heq] at hdisj
            exact ⟨hdisj, hle⟩
        · refine ⟨(new, w) :: pushed, ?_, ?_⟩
          · rw [hheap, ht₁]
            simp
          · intro e he
            rcases List.mem_cons.mp he with rfl | he'
            · exact ⟨d, List.mem_cons_self d ds, rfl, hv, rfl, himp,
                hwuntouched.symm⟩
            · obtain ⟨d', hd', he2, hev, hekey, helt, hebest⟩ := hpushed e he'
              have hne : ¬ SameIdx e.2 w := by
                intro hsame
                have : e.2 = w := validPos_sameIdx_inj hev hv hsame
                rw [he2] at this
                exact hdnotin (this ▸ List.mem_map.mpr ⟨d', hd', rfl⟩)
              refine ⟨d', List.mem_cons_of_mem d hd', he2, hev, hekey, ?_, hebest⟩
              rw [← hb₁other e.2 hne]
              exact helt
        · have hsum := sumB_setCell hcompat.1 hvw (riskAtC g₀ w, new)
          have hlen : t₁.heap.length = t.heap.length + 1 := by
            rw [ht₁]
            simp
          have hb : bestAt t.grid w.i.toNat w.j.toNat = bestAtC t.grid w := rfl
          rw [hb] at hsum
          have hless : new < bestAtC t.grid w := himp
          have : 5 * sumB t₁.grid + t₁.heap.length ≤ 5 * sumB t.grid +
              t.heap.length := by
            have h2 : sumB t₁.grid + bestAtC t.grid w = sumB t.grid + new := hsum
            omega
          omega
      · -- non-improving relaxation: no change
        have hstep := (hspec.2 hv).2 himp
        obtain ⟨t', hfold, hcompat', huntouched, hrelaxed,
          ⟨pushed, hheap, hpushed⟩, hmu⟩ := ih t hcompat hnodup'
        refine ⟨t', ?_, hcompat', ?_, ?_, ⟨pushed, hheap, fun e he =>
          (hpushed e he).elim fun d' hd' =>
            ⟨d', List.mem_cons_of_mem d hd'.1, hd'.2⟩⟩, hmu⟩
        · rw [List.foldlM_cons, hstep]
          exact hfold
        · intro q hq
          exact huntouched q (fun d' hd' => hq d' (List.mem_cons_of_mem d hd'))
        · intro d' hd' hv'
          rcases List.mem_cons.mp hd' with rfl | hd''
          · have hne : bestAtC t'.grid (c.addDir d') = bestAtC t.grid (c.addDir d') := by
              apply huntouched
              intro d'' hd'' hv'' hsame
              have : c.addDir d' = c.addDir d'' := validPos_sameIdx_inj hv' hv'' hsame
              exact hdnotin (this ▸ List.mem_map.mpr ⟨d'', hd'', rfl⟩)
            refine ⟨Or.inl hne, ?_⟩
            rw [hne]
            omega
          · exact hrelaxed d' hd'' hv'
    · -- out-of-bounds neighbour: skipped
      have hstep := hspec.1 hv
      obtain ⟨t', hfold, hcompat', huntouched, hrelaxed,
        ⟨pushed, hheap, hpushed⟩, hmu⟩ := ih t hcompat hnodup'
      refine ⟨t', ?_, hcompat', ?_, ?_, ⟨pushed, hheap, fun e he =>
        (hpushed e he).elim fun d' hd' =>
          ⟨d', List.mem_cons_of_mem d hd'.1, hd'.2⟩⟩, hmu⟩
      · rw [List.foldlM_cons, hstep]
        exact hfold
      · intro q hq
        exact huntouched q (fun d' hd' => hq d' (List.mem_cons_of_mem d hd'))
      · intro d' hd' hv'
        rcases List.mem_cons.mp hd' with rfl | hd''
        · exact absurd hv' hv
        · exact hrelaxed d' hd'' hv'

/-! ### The Dijkstra loop invariant -/

/-- Upper bound on every true shortest-path cost: `9·((R−1)+(C−1))`. -/
def Dbound (g₀ : UnsizedGrid Cell) : Nat :=
  9 * (g₀.num_rows - 1 + (g₀.num_cols - 1))

/-- Every outgoing relaxation from `p` is reflected in the grid `g`. -/
def Relaxed (g₀ g : UnsizedGrid Cell) (p : Coordinate) : Prop :=
  ∀ d : Direction, ValidPos g₀ (p.addDir d) →
    bestAtC g (p.addDir d) ≤ bestAtC g p + riskAtC g₀ (p.addDir d)

/-- The loop invariant of `lowest_risk`: the working grid stays compatible
with the input `g₀`, best-known costs are sound upper bounds on walk
costs, the start stays settled at 0, heap keys are bounded upper bounds,
every cell is either freshly queued at its current best or fully relaxed,
and the end cell is untouched or queued at its current best. -/
structure DInv (g₀ : UnsizedGrid Cell) (endc : Coordinate) (s : DState) : Prop where
  compat : GridCompat g₀ s.grid
  bestLe : ∀ p, ValidPos g₀ p → bestAtC s.grid p ≤ 65535
  startB : bestAtC s.grid ⟨0, 0⟩ = 0
  distLe : ∀ p, ValidPos g₀ p → sInf (costsTo g₀ p) ≤ bestAtC s.grid p
  heapInv : ∀ e ∈ s.heap, ValidPos g₀ e.2 ∧ sInf (costsTo g₀ e.2) ≤ e.1 ∧
    e.1 ≤ Dbound g₀ + 9
  process : ∀ p, ValidPos g₀ p →
    (bestAtC s.grid p, p) ∈ s.heap ∨ Relaxed g₀ s.grid p
  endDisj : bestAtC s.grid endc = 65535 ∨ (bestAtC s.grid endc, endc) ∈ s.heap

theorem mem_direction_list (d : Direction) : d ∈ Direction.direction_list := by
  cases d <;> simp [Direction.direction_list]

theorem riskAtC_bounds {g₀ : UnsizedGrid Cell} (hcosts : CostsOK g₀)
    {p : Coordinate} (hp : ValidPos g₀ p) :
    1 ≤ riskAtC g₀ p ∧ riskAtC g₀ p ≤ 9 :=
  hcosts p hp

theorem dist_triangle_C {g₀ : UnsizedGrid Cell} (hrow : 0 < g₀.num_rows)
    (hcol : 0 < g₀.num_cols) {v u : Coordinate} (hv : ValidPos g₀ v)
    (hu : ValidPos g₀ u) (hadj : Adjacent v u) :
    sInf (costsTo g₀ u) ≤ sInf (costsTo g₀ v) + riskAtC g₀ u :=
  sInf_costsTo_triangle hrow hcol hv hu hadj

theorem dist_le_Dbound {g₀ : UnsizedGrid Cell} (hrow : 0 < g₀.num_rows)
    (hcol : 0 < g₀.num_cols) (hcosts : CostsOK g₀) {p : Coordinate}
    (hp : ValidPos g₀ p) : sInf (costsTo g₀ p) ≤ Dbound g₀ := by
  have h := sInf_costsTo_bound hrow hcol hcosts (p.i.toNat + p.j.toNat) p hp rfl
  obtain ⟨h1, h2, h3, h4⟩ := hp
  unfold Dbound
  omega

/-- Completeness: under the invariant, every valid cell is either settled
at its true distance and fully relaxed, or the heap holds a fresh entry
whose true distance is no larger than the cell's. -/
theorem dInv_frontier {g₀ : UnsizedGrid Cell} {endc : Coordinate} {s : DState}
    (hrow : 0 < g₀.num_rows) (hcol : 0 < g₀.num_cols) (hcosts : CostsOK g₀)
    (hinv : DInv g₀ endc s) :
    ∀ n (p : Coordinate), ValidPos g₀ p → sInf (costsTo g₀ p) = n →
      (∃ e ∈ s.heap, e.1 = bestAtC s.grid e.2 ∧
        bestAtC s.grid e.2 = sInf (costsTo g₀ e.2) ∧
        sInf (costsTo g₀ e.2) ≤ sInf (costsTo g₀ p)) ∨
      (bestAtC s.grid p = sInf (costsTo g₀ p) ∧ Relaxed g₀ s.grid p) := by
  intro n
  induction n using Nat.strong_induction_on with
  | _ n ih =>
    intro p hp hn
    by_cases hps : p = ⟨0, 0⟩
    · subst hps
      have hd0 : sInf (costsTo g₀ (⟨0, 0⟩ : Coordinate)) = 0 :=
        sInf_costsTo_start hrow hcol
      rcases hinv.process ⟨0, 0⟩ hp with hmem | hrel
      · refine Or.inl ⟨(bestAtC s.grid ⟨0, 0⟩, ⟨0, 0⟩), hmem, rfl, ?_, ?_⟩
        · rw [hinv.startB, hd0]
        · exact le_refl _
      · exact Or.inr ⟨by rw [hinv.startB, hd0], hrel⟩
    · obtain ⟨v, hvv, hadj, hdec, hlt⟩ :=
        sInf_costsTo_decompose hrow hcol hcosts hp hps
      rcases ih (sInf (costsTo g₀ v)) (by omega) v hvv rfl with
        ⟨e, he, h1, h2, h3⟩ | ⟨hbv, hrel⟩
      · exact Or.inl ⟨e, he, h1, h2, by omega⟩
      · obtain ⟨d, hd⟩ := hadj
        have hbp : bestAtC s.grid p ≤ bestAtC s.grid v + riskAtC g₀ p := by
          have h := hrel d (hd ▸ hp)
          rw [← hd] at h
          exact h
        have hsound := hinv.distLe p hp
        have hrk : riskAtC g₀ p = riskAt g₀ p.i.toNat p.j.toNat := rfl
        have hbpd : bestAtC s.grid p = sInf (costsTo g₀ p) := by omega
        rcases hinv.process p hp with hmem | hrel'
        · exact Or.inl ⟨(bestAtC s.grid p, p), hmem, rfl, hbpd, le_refl _⟩
        · exact Or.inr ⟨hbpd, hrel'⟩

/-- The popped minimum never exceeds the true distance to the end cell. -/
theorem dInv_min_key {g₀ : UnsizedGrid Cell} {endc : Coordinate} {s : DState}
    (hrow : 0 < g₀.num_rows) (hcol : 0 < g₀.num_cols) (hcosts : CostsOK g₀)
    (hsize : 9 * (g₀.num_rows + g₀.num_cols) ≤ 65535)
    (hendv : ValidPos g₀ endc) (hinv : DInv g₀ endc s) {e : HeapEntry}
    (hm : heapMin s.heap = some e) : e.1 ≤ sInf (costsTo g₀ endc) := by
  have hdb : sInf (costsTo g₀ endc) ≤ Dbound g₀ :=
    dist_le_Dbound hrow hcol hcosts hendv
  have hDb : Dbound g₀ + 18 ≤ 65535 := by
    unfold Dbound
    omega
  rcases dInv_frontier hrow hcol hcosts hinv (sInf (costsTo g₀ endc)) endc hendv
      rfl with ⟨e', he', h1, h2, h3⟩ | ⟨hbe, _⟩
  · have h4 := entryLe_key (heapMin_le hm e' he')
    omega
  · rcases hinv.endDisj with h65 | hmem
    · rw [h65] at hbe
      omega
    · have h4 : e.1 ≤ bestAtC s.grid endc :=
        entryLe_key (heapMin_le hm _ hmem)
      omega

/-- One loop iteration under the invariant: it never panics, can only
return the true shortest cost to `endc`, and otherwise preserves the
invariant, strictly decreases the potential, and never increases any
best-known cost. -/
theorem dInv_step {g₀ : UnsizedGrid Cell} {endc : Coordinate} {s : DState}
    (hrow : 0 < g₀.num_rows) (hcol : 0 < g₀.num_cols) (hcosts : CostsOK g₀)
    (hsize : 9 * (g₀.num_rows + g₀.num_cols) ≤ 65535)
    (hendv : ValidPos g₀ endc) (hinv : DInv g₀ endc s) :
    step endc s ≠ .panic ∧
    (∀ v, step endc s = .ret v → v = sInf (costsTo g₀ endc)) ∧
    (∀ s', step endc s = .next s' → DInv g₀ endc s' ∧
      5 * sumB s'.grid + s'.heap.length < 5 * sumB s.grid + s.heap.length ∧
      ∀ p, ValidPos g₀ p → bestAtC s'.grid p ≤ bestAtC s.grid p) := by
  have hDb : Dbound g₀ + 18 ≤ 65535 := by
    unfold Dbound
    omega
  have hdb : sInf (costsTo g₀ endc) ≤ Dbound g₀ :=
    dist_le_Dbound hrow hcol hcosts hendv
  cases hm : heapMin s.heap with
  | none =>
    exfalso
    rw [heapMin_none_iff] at hm
    rcases dInv_frontier hrow hcol hcosts hinv (sInf (costsTo g₀ endc)) endc
        hendv rfl with ⟨e', he', _⟩ | ⟨hbe, _⟩
    · rw [hm] at he'
      exact absurd he' (List.not_mem_nil e')
    · rcases hinv.endDisj with h65 | hmem
      · rw [h65] at hbe
        omega
      · rw [hm] at hmem
        exact absurd hmem (List.not_mem_nil _)
  | some e =>
    have hein := heapMin_mem hm
    obtain ⟨hev, hed, hek⟩ := hinv.heapInv e hein
    have hmink : e.1 ≤ sInf (costsTo g₀ endc) :=
      dInv_min_key hrow hcol hcosts hsize hendv hinv hm
    by_cases hret : e.2 = endc
    · have hs : step endc s = .ret e.1 := by
        simp only [step, hm]
        rw [if_pos hret]
      refine ⟨by rw [hs]; intro h; exact StepRes.noConfusion h, ?_, ?_⟩
      · intro v hv
        rw [hs] at hv
        cases hv
        rw [hret] at hed
        omega
      · intro s' hs'
        rw [hs] at hs'
        exact StepRes.noConfusion hs'
    · have haccb : e.1 ≤ Dbound g₀ := le_trans hmink hdb
      set t : DState := ⟨s.grid, s.heap.erase e⟩ with ht
      have hgrid : t.grid = s.grid := by rw [ht]
      have htheap : t.heap = s.heap.erase e := by rw [ht]
      obtain ⟨t', hfold, hcompat', huntouched, hrelaxed,
        ⟨pushed, hheap, hpushed⟩, hmu⟩ :=
        relax_fold_spec e.1 e.2 Direction.direction_list t
          (by rw [hgrid]; exact hinv.compat) (direction_images_nodup e.2)
      rw [hgrid] at huntouched hrelaxed hpushed
      rw [hgrid, htheap] at hmu
      rw [htheap] at hheap
      have hs : step endc s = .next t' := by
        simp only [step, hm]
        rw [if_neg hret, ← ht, hfold]
      refine ⟨by rw [hs]; intro h; exact StepRes.noConfusion h, ?_, ?_⟩
      · intro v hv
        rw [hs] at hv
        exact StepRes.noConfusion hv
      intro s' hs'
      rw [hs] at hs'
      cases hs'
      have hkeymod : ∀ {u : Coordinate}, ValidPos g₀ u →
          (e.1 + riskAtC g₀ u) % 65536 = e.1 + riskAtC g₀ u := by
        intro u hu
        have hr := (riskAtC_bounds hcosts hu).2
        apply Nat.mod_eq_of_lt
        omega
      have hcases : ∀ p, ValidPos g₀ p →
          bestAtC t'.grid p = bestAtC s.grid p ∨
          (Adjacent e.2 p ∧ bestAtC t'.grid p = e.1 + riskAtC g₀ p ∧
            e.1 + riskAtC g₀ p < bestAtC s.grid p ∧
            (e.1 + riskAtC g₀ p, p) ∈ t'.heap) := by
        intro p hp
        by_cases htouch : ∃ d ∈ Direction.direction_list,
          ValidPos g₀ (e.2.addDir d) ∧ SameIdx p (e.2.addDir d)
        · obtain ⟨d, hdmem, hvd, hsame⟩ := htouch
          obtain rfl : p = e.2.addDir d := validPos_sameIdx_inj hp hvd hsame
          rcases (hrelaxed d hdmem hvd).1 with h | ⟨h1, h2, h3⟩
          · exact Or.inl h
          · rw [hkeymod hp] at h1 h2 h3
            exact Or.inr ⟨⟨d, rfl⟩, h1, h2, h3⟩
        · push_neg at htouch
          exact Or.inl (huntouched p fun d hd hvd hsame => htouch d hd hvd hsame)
      have hple : ∀ p, ValidPos g₀ p →
          bestAtC t'.grid p ≤ bestAtC s.grid p := by
        intro p hp
        rcases hcases p hp with h | ⟨_, h1, h2, _⟩
        · omega
        · omega
      have hpushed' : ∀ x ∈ pushed, ValidPos g₀ x.2 ∧ Adjacent e.2 x.2 ∧
          x.1 = e.1 + riskAtC g₀ x.2 ∧ x.1 < bestAtC s.grid x.2 ∧
          x.1 = bestAtC t'.grid x.2 := by
        intro x hx
        obtain ⟨d, hd, hx2, hxv, hxkey, hxlt, hxbest⟩ := hpushed x hx
        have hkm := hkeymod hxv
        exact ⟨hxv, ⟨d, hx2⟩, hxkey.trans hkm, hxlt, hxbest⟩
      have hdistpush : ∀ x : HeapEntry, ValidPos g₀ x.2 → Adjacent e.2 x.2 →
          x.1 = e.1 + riskAtC g₀ x.2 → sInf (costsTo g₀ x.2) ≤ x.1 := by
        intro x hxv hxadj hxkey
        have htri := dist_triangle_C hrow hcol hev hxv hxadj
        omega
      refine ⟨⟨hcompat', ?_, ?_, ?_, ?_, ?_, ?_⟩, ?_, hple⟩
      · intro p hp
        exact le_trans (hple p hp) (hinv.bestLe p hp)
      · have h0 := hple ⟨0, 0⟩ (validPos_start hrow hcol)
        have h1 := hinv.startB
        omega
      · intro p hp
        rcases hcases p hp with h | ⟨hadj, h1, h2, _⟩
        · rw [h]
          exact hinv.distLe p hp
        · rw [h1]
          exact hdistpush (e.1 + riskAtC g₀ p, p) hp hadj rfl
      · intro x hx
        rw [hheap] at hx
        rcases List.mem_append.mp hx with hx | hx
        · exact hinv.heapInv x (List.mem_of_mem_erase hx)
        · obtain ⟨hxv, hxadj, hxkey, hxlt, _⟩ := hpushed' x hx
          refine ⟨hxv, hdistpush x hxv hxadj hxkey, ?_⟩
          have hr := (riskAtC_bounds hcosts hxv).2
          omega
      · intro p hp
        rcases hcases p hp with hB | ⟨hadj, h1, h2, h3⟩
        · rcases hinv.process p hp with hmem | hrel
          · by_cases hpe : (bestAtC s.grid p, p) = e
            · refine Or.inr ?_
              intro d hvd
              have he1 : e.1 = bestAtC s.grid p := by rw [← hpe]
              have he2 : e.2 = p := by rw [← hpe]
              have hvd' : ValidPos g₀ (e.2.addDir d) := by
                rw [he2]
                exact hvd
              have hle := (hrelaxed d (mem_direction_list d) hvd').2
              rw [hkeymod hvd'] at hle
              rw [he2] at hle
              rw [hB, ← he1]
              have he2' : riskAtC g₀ (p.addDir d) = riskAtC g₀ (p.addDir d) := rfl
              omega
            · refine Or.inl ?_
              rw [hB, hheap]
              exact List.mem_append.mpr (Or.inl
                ((List.mem_erase_of_ne hpe).mpr hmem))
          · refine Or.inr ?_
            intro d hvd
            have h1 := hple (p.addDir d) hvd
            have h2 := hrel d hvd
            rw [hB]
            omega
        · refine Or.inl ?_
          rw [h1]
          exact h3
      · rcases hcases endc hendv with hB | ⟨_, h1, _, h3⟩
        · rcases hinv.endDisj with h65 | hmem
          · refine Or.inl ?_
            rw [hB]
            exact h65
          · refine Or.inr ?_
            rw [hB, hheap]
            refine List.mem_append.mpr (Or.inl ?_)
            refine (List.mem_erase_of_ne ?_).mpr hmem
            intro h
            apply hret
            rw [← h]
        · refine Or.inr ?_
          rw [h1]
          exact h3
      · have herase : (s.heap.erase e).length = s.heap.length - 1 :=
          List.length_erase_of_mem hein
        have hlen : 0 < s.heap.length := List.length_pos_of_mem hein
        omega

/-- Fuel induction: from any invariant state with enough fuel the loop
returns the true shortest cost to `endc`. -/
theorem iterateD_computes {g₀ : UnsizedGrid Cell} {endc : Coordinate}
    (hrow : 0 < g₀.num_rows) (hcol : 0 < g₀.num_cols) (hcosts : CostsOK g₀)
    (hsize : 9 * (g₀.num_rows + g₀.num_cols) ≤ 65535)
    (hendv : ValidPos g₀ endc) :
    ∀ fuel (s : DState), DInv g₀ endc s →
      5 * sumB s.grid + s.heap.length < fuel →
      iterateD endc fuel s = some (sInf (costsTo g₀ endc)) := by
  intro fuel
  induction fuel with
  | zero =>
    intro s _ h
    omega
  | succ fuel ih =>
    intro s hinv hfuel
    obtain ⟨hnp, hret, hnext⟩ := dInv_step hrow hcol hcosts hsize hendv hinv
    cases hstep : step endc s with
    | panic => exact absurd hstep hnp
    | ret v =>
      have hv := hret v hstep
      simp only [iterateD, hstep]
      rw [hv]
    | next s' =>
      obtain ⟨hinv', hmu, _⟩ := hnext s' hstep
      simp only [iterateD, hstep]
      exact ih s' hinv' (by omega)

/-- The invariant holds at `lowest_risk`'s initial state. -/
theorem dInv_init {g₀ : UnsizedGrid Cell} (hrect : g₀.Rect)
    (hrow : 0 < g₀.num_rows) (hcol : 0 < g₀.num_cols) (hcosts : CostsOK g₀)
    (hsize : 9 * (g₀.num_rows + g₀.num_cols) ≤ 65535)
    {endc : Coordinate} (hendv : ValidPos g₀ endc)
    (hB0 : bestAtC g₀ ⟨0, 0⟩ = 0)
    (hBrest : ∀ p, ValidPos g₀ p → p ≠ ⟨0, 0⟩ → bestAtC g₀ p = 65535) :
    DInv g₀ endc ⟨g₀, [(0, ⟨0, 0⟩)]⟩ := by
  have hBle : ∀ p, ValidPos g₀ p → bestAtC g₀ p ≤ 65535 := by
    intro p hp
    by_cases h : p = ⟨0, 0⟩
    · rw [h, hB0]
      omega
    · rw [hBrest p hp h]
  refine ⟨gridCompat_refl hrect, hBle, hB0, ?_, ?_, ?_, ?_⟩
  · intro p hp
    by_cases h : p = ⟨0, 0⟩
    · rw [h, hB0, sInf_costsTo_start hrow hcol]
    · rw [hBrest p hp h]
      have h1 := dist_le_Dbound hrow hcol hcosts hp
      have h2 : Dbound g₀ + 18 ≤ 65535 := by
        unfold Dbound
        omega
      omega
  · intro e he
    simp only [List.mem_singleton] at he
    subst he
    refine ⟨validPos_start hrow hcol, ?_, Nat.zero_le _⟩
    exact le_of_eq (sInf_costsTo_start hrow hcol)
  · intro p hp
    by_cases h : p = ⟨0, 0⟩
    · subst h
      left
      rw [hB0]
      simp
    · right
      intro d hvd
      show bestAtC g₀ (p.addDir d) ≤ bestAtC g₀ p + riskAtC g₀ (p.addDir d)
      rw [hBrest p hp h]
      have ht := hBle (p.addDir d) hvd
      omega
  · by_cases h : endc = ⟨0, 0⟩
    · right
      rw [h, hB0]
      simp
    · left
      exact hBrest endc hendv h

/-- **C1** (amended with the grid-size bound `9·(R+C) ≤ 65535`, under
which the `u16` accumulation cannot wrap): for every rectangular
risk grid with costs in `1..=9`, best-known costs initialized to `0` at
the start cell and `65535` elsewhere, `lowest_risk` returns the minimum
total cost, over all four-directional paths from the top-left cell to
the bottom-right cell, of the sum of the visited cells' costs excluding
the start cell. -/
theorem lowest_risk_is_shortest (rm : RiskMap)
    (hrect : rm.grid.Rect) (hrow : 0 < rm.grid.num_rows)
    (hcol : 0 < rm.grid.num_cols) (hcosts : CostsOK rm.grid)
    (hsize : 9 * (rm.grid.num_rows + rm.grid.num_cols) ≤ 65535)
    (hB0 : bestAtC rm.grid ⟨0, 0⟩ = 0)
    (hBrest : ∀ p, ValidPos rm.grid p → p ≠ ⟨0, 0⟩ →
      bestAtC rm.grid p = 65535) :
    ∃ r, rm.lowest_risk = some r ∧
      IsLeast (costsTo rm.grid rm.end_coord) r := by
  have hendv : ValidPos rm.grid rm.end_coord := by
    unfold RiskMap.end_coord UnsizedGrid.last_coordinate ValidPos
    dsimp only
    omega
  have hinv := dInv_init hrect hrow hcol hcosts hsize hendv hB0 hBrest
  refine ⟨sInf (costsTo rm.grid rm.end_coord), ?_, ?_⟩
  · show iterateD rm.end_coord (dijkstraFuel ⟨rm.grid, [(0, ⟨0, 0⟩)]⟩)
      ⟨rm.grid, [(0, ⟨0, 0⟩)]⟩ = _
    apply iterateD_computes hrow hcol hcosts hsize hendv _ _ hinv
    simp [dijkstraFuel]
  · exact ⟨sInf_costsTo_mem hrow hcol hendv, fun n hn => sInf_costsTo_le hn⟩

/-- The 2×2 instance used to witness the amended C1. -/
def rmC1 : RiskMap :=
  ⟨⟨[[(1, 0), (3, 65535)], [(1, 65535), (1, 65535)]]⟩⟩

theorem lowest_risk_is_shortest_witness :
    ∃ r, rmC1.lowest_risk = some r ∧
      IsLeast (costsTo rmC1.grid rmC1.end_coord) r := by
  apply lowest_risk_is_shortest rmC1
  · decide
  · decide
  · decide
  · intro p hp
    obtain ⟨i, j⟩ := p
    obtain ⟨h1, h2, h3, h4⟩ := hp
    have hr : rmC1.grid.num_rows = 2 := rfl
    have hc : rmC1.grid.num_cols = 2 := rfl
    rw [hr] at h3
    rw [hc] at h4
    dsimp only at h1 h2 h3 h4
    have hi : i = 0 ∨ i = 1 := by omega
    have hj : j = 0 ∨ j = 1 := by omega
    rcases hi with rfl | rfl <;> rcases hj with rfl | rfl <;> decide
  · decide
  · decide
  · intro p hp hne
    obtain ⟨i, j⟩ := p
    obtain ⟨h1, h2, h3, h4⟩ := hp
    have hr : rmC1.grid.num_rows = 2 := rfl
    have hc : rmC1.grid.num_cols = 2 := rfl
    rw [hr] at h3
    rw [hc] at h4
    dsimp only at h1 h2 h3 h4
    have hi : i = 0 ∨ i = 1 := by omega
    have hj : j = 0 ∨ j = 1 := by omega
    rcases hi with rfl | rfl <;> rcases hj with rfl | rfl
    · exact absurd rfl hne
    · decide
    · decide
    · decide

/-! ### The light invariant for monotonicity (C8) -/

/-- The cost-agnostic invariant of `lowest_risk`: enough to show
monotonicity of the stored best-known costs and that the returned key
always equals the end cell's stored cost. -/
structure C8Inv (g₀ : UnsizedGrid Cell) (endc : Coordinate) (s : DState) : Prop where
  compat : GridCompat g₀ s.grid
  bestLe : ∀ p, ValidPos g₀ p → bestAtC s.grid p ≤ 65535
  heapInv : ∀ e ∈ s.heap, ValidPos g₀ e.2 ∧ bestAtC s.grid e.2 ≤ e.1 ∧
    e.1 ≤ 65535
  endDisj : bestAtC s.grid endc = 65535 ∨ (bestAtC s.grid endc, endc) ∈ s.heap

theorem c8_step {g₀ : UnsizedGrid Cell} {endc : Coordinate} {s : DState}
    (hendv : ValidPos g₀ endc) (hinv : C8Inv g₀ endc s) :
    (∀ v, step endc s = .ret v → bestAtC s.grid endc = v) ∧
    (∀ s', step endc s = .next s' → C8Inv g₀ endc s' ∧
      ∀ p, ValidPos g₀ p → bestAtC s'.grid p ≤ bestAtC s.grid p ∧
        (bestAtC s'.grid p ≠ bestAtC s.grid p →
          bestAtC s'.grid p < bestAtC s.grid p)) := by
  cases hm : heapMin s.heap with
  | none =>
    constructor
    · intro v hv
      simp only [step, hm] at hv
      exact StepRes.noConfusion hv
    · intro s' hs'
      simp only [step, hm] at hs'
      exact StepRes.noConfusion hs'
  | some e =>
    have hein := heapMin_mem hm
    obtain ⟨hev, hbe, hke⟩ := hinv.heapInv e hein
    by_cases hret : e.2 = endc
    · have hs : step endc s = .ret e.1 := by
        simp only [step, hm]
        rw [if_pos hret]
      constructor
      · intro v hv
        rw [hs] at hv
        cases hv
        rw [hret] at hbe
        rcases hinv.endDisj with h65 | hmem
        · omega
        · have h4 : e.1 ≤ bestAtC s.grid endc :=
            entryLe_key (heapMin_le hm _ hmem)
          omega
      · intro s' hs'
        rw [hs] at hs'
        exact StepRes.noConfusion hs'
    · set t : DState := ⟨s.grid, s.heap.erase e⟩ with ht
      have hgrid : t.grid = s.grid := by rw [ht]
      have htheap : t.heap = s.heap.erase e := by rw [ht]
      obtain ⟨t', hfold, hcompat', huntouched, hrelaxed,
        ⟨pushed, hheap, hpushed⟩, hmu⟩ :=
        relax_fold_spec e.1 e.2 Direction.direction_list t
          (by rw [hgrid]; exact hinv.compat) (direction_images_nodup e.2)
      rw [hgrid] at huntouched hrelaxed hpushed
      rw [htheap] at hheap
      have hs : step endc s = .next t' := by
        simp only [step, hm]
        rw [if_neg hret, ← ht, hfold]
      constructor
      · intro v hv
        rw [hs] at hv
        exact StepRes.noConfusion hv
      intro s' hs'
      rw [hs] at hs'
      cases hs'
      have hcases : ∀ p, ValidPos g₀ p →
          bestAtC t'.grid p = bestAtC s.grid p ∨
          (bestAtC t'.grid p = (e.1 + riskAtC g₀ p) % 65536 ∧
            (e.1 + riskAtC g₀ p) % 65536 < bestAtC s.grid p ∧
            ((e.1 + riskAtC g₀ p) % 65536, p) ∈ t'.heap) := by
        intro p hp
        by_cases htouch : ∃ d ∈ Direction.direction_list,
          ValidPos g₀ (e.2.addDir d) ∧ SameIdx p (e.2.addDir d)
        · obtain ⟨d, hdmem, hvd, hsame⟩ := htouch
          obtain rfl : p = e.2.addDir d := validPos_sameIdx_inj hp hvd hsame
          rcases (hrelaxed d hdmem hvd).1 with h | ⟨h1, h2, h3⟩
          · exact Or.inl h
          · exact Or.inr ⟨h1, h2, h3⟩
        · push_neg at htouch
          exact Or.inl (huntouched p fun d hd hvd hsame => htouch d hd hvd hsame)
      have hple : ∀ p, ValidPos g₀ p → bestAtC t'.grid p ≤ bestAtC s.grid p ∧
          (bestAtC t'.grid p ≠ bestAtC s.grid p →
            bestAtC t'.grid p < bestAtC s.grid p) := by
        intro p hp
        rcases hcases p hp with h | ⟨h1, h2, _⟩
        · exact ⟨le_of_eq h, fun hne => absurd h hne⟩
        · exact ⟨by omega, fun _ => by omega⟩
      refine ⟨⟨hcompat', ?_, ?_, ?_⟩, fun p hp => hple p hp⟩
      · intro p hp
        exact le_trans (hple p hp).1 (hinv.bestLe p hp)
      · intro x hx
        rw [hheap] at hx
        rcases List.mem_append.mp hx with hx | hx
        · obtain ⟨hxv, hxb, hxk⟩ := hinv.heapInv x (List.mem_of_mem_erase hx)
          exact ⟨hxv, le_trans (hple x.2 hxv).1 hxb, hxk⟩
        · obtain ⟨d, hd, hx2, hxv, hxkey, hxlt, hxbest⟩ := hpushed x hx
          refine ⟨hxv, le_of_eq hxbest.symm, ?_⟩
          rw [hxkey]
          have h5 := Nat.mod_lt (e.1 + riskAtC g₀ x.2)
            (show 0 < 65536 by omega)
          omega
      · rcases hcases endc hendv with hB | ⟨h1, _, h3⟩
        · rcases hinv.endDisj with h65 | hmem
          · refine Or.inl ?_
            rw [hB]
            exact h65
          · refine Or.inr ?_
            rw [hB, hheap]
            refine List.mem_append.mpr (Or.inl ?_)
            refine (List.mem_erase_of_ne ?_).mpr hmem
            intro h
            exact hret (by rw [← h])
        · refine Or.inr ?_
          rw [h1]
          exact h3

theorem c8Inv_stepN {g₀ : UnsizedGrid Cell} {endc : Coordinate}
    (hendv : ValidPos g₀ endc) :
    ∀ n (s s' : DState), C8Inv g₀ endc s → stepN endc n s = some s' →
      C8Inv g₀ endc s' := by
  intro n
  induction n with
  | zero =>
    intro s s' hinv h
    simp only [stepN, Option.some.injEq] at h
    rw [← h]
    exact hinv
  | succ n ih =>
    intro s s' hinv h
    cases hstep : step endc s with
    | panic =>
      simp only [stepN, hstep] at h
      exact Option.noConfusion h
    | ret v =>
      simp only [stepN, hstep] at h
      exact Option.noConfusion h
    | next s1 =>
      simp only [stepN, hstep] at h
      exact ih s1 s' ((c8_step hendv hinv).2 s1 hstep).1 h

theorem iterateD_ret_decomp {endc : Coordinate} :
    ∀ fuel (s : DState) (v : Nat), iterateD endc fuel s = some v →
      ∃ n s', stepN endc n s = some s' ∧ step endc s' = .ret v := by
  intro fuel
  induction fuel with
  | zero =>
    intro s v h
    simp [iterateD] at h
  | succ fuel ih =>
    intro s v h
    cases hstep : step endc s with
    | panic =>
      simp only [iterateD, hstep] at h
      exact Option.noConfusion h
    | ret w =>
      simp only [iterateD, hstep, Option.some.injEq] at h
      refine ⟨0, s, rfl, ?_⟩
      rw [hstep, h]
    | next s1 =>
      simp only [iterateD, hstep] at h
      obtain ⟨n, s', h1, h2⟩ := ih s1 v h
      refine ⟨n + 1, s', ?_, h2⟩
      simp only [stepN, hstep]
      exact h1

theorem c8Inv_init {g₀ : UnsizedGrid Cell} (hrect : g₀.Rect)
    (hrow : 0 < g₀.num_rows) (hcol : 0 < g₀.num_cols)
    (hB0 : bestAtC g₀ ⟨0, 0⟩ = 0)
    (hBrest : ∀ p, ValidPos g₀ p → p ≠ ⟨0, 0⟩ → bestAtC g₀ p = 65535)
    {endc : Coordinate} (hendv : ValidPos g₀ endc) :
    C8Inv g₀ endc ⟨g₀, [(0, ⟨0, 0⟩)]⟩ := by
  have hBle : ∀ p, ValidPos g₀ p → bestAtC g₀ p ≤ 65535 := by
    intro p hp
    by_cases h : p = ⟨0, 0⟩
    · rw [h, hB0]
      omega
    · rw [hBrest p hp h]
  refine ⟨gridCompat_refl hrect, hBle, ?_, ?_⟩
  · intro e he
    simp only [List.mem_singleton] at he
    subst he
    exact ⟨validPos_start hrow hcol, le_of_eq hB0, Nat.zero_le _⟩
  · by_cases h : endc = ⟨0, 0⟩
    · right
      rw [h, hB0]
      simp
    · left
      exact hBrest endc hendv h

/-- **C8**: during any run of `lowest_risk`, the best-known cost of every
cell never increases — an iteration that changes a cell's stored value
strictly decreases it — and when the run returns, the best-known cost
stored at the bottom-right end cell equals the returned result. -/
theorem lowest_risk_monotone_final (rm : RiskMap)
    (hrect : rm.grid.Rect) (hrow : 0 < rm.grid.num_rows)
    (hcol : 0 < rm.grid.num_cols)
    (hB0 : bestAtC rm.grid ⟨0, 0⟩ = 0)
    (hBrest : ∀ p, ValidPos rm.grid p → p ≠ ⟨0, 0⟩ →
      bestAtC rm.grid p = 65535) :
    (∀ n s', stepN rm.end_coord n ⟨rm.grid, [(0, ⟨0, 0⟩)]⟩ = some s' →
      ∀ s'', step rm.end_coord s' = .next s'' →
        ∀ p, ValidPos rm.grid p →
          bestAtC s''.grid p ≤ bestAtC s'.grid p ∧
          (bestAtC s''.grid p ≠ bestAtC s'.grid p →
            bestAtC s''.grid p < bestAtC s'.grid p)) ∧
    (∀ v, rm.lowest_risk = some v →
      ∃ n s', stepN rm.end_coord n ⟨rm.grid, [(0, ⟨0, 0⟩)]⟩ = some s' ∧
        step rm.end_coord s' = .ret v ∧
        bestAtC s'.grid rm.end_coord = v) := by
  have hendv : ValidPos rm.grid rm.end_coord := by
    unfold RiskMap.end_coord UnsizedGrid.last_coordinate ValidPos
    dsimp only
    omega
  have hinv₀ := c8Inv_init hrect hrow hcol hB0 hBrest hendv
  constructor
  · intro n s' hn s'' hstep p hp
    have hinv' := c8Inv_stepN hendv n _ s' hinv₀ hn
    exact ((c8_step hendv hinv').2 s'' hstep).2 p hp
  · intro v hv
    have hv' : iterateD rm.end_coord (dijkstraFuel ⟨rm.grid, [(0, ⟨0, 0⟩)]⟩)
        ⟨rm.grid, [(0, ⟨0, 0⟩)]⟩ = some v := hv
    obtain ⟨n, s', h1, h2⟩ := iterateD_ret_decomp _ _ v hv'
    have hinv' := c8Inv_stepN hendv n _ s' hinv₀ h1
    exact ⟨n, s', h1, h2, (c8_step hendv hinv').1 v h2⟩

theorem lowest_risk_monotone_final_witness :
    ∃ n s', stepN rmC1.end_coord n ⟨rmC1.grid, [(0, ⟨0, 0⟩)]⟩ = some s' ∧
      step rmC1.end_coord s' = .ret 2 ∧
      bestAtC s'.grid rmC1.end_coord = 2 := by
  refine (lowest_risk_monotone_final rmC1 (by decide) (by decide) (by decide)
    (by decide) ?_).2 2 (by decide)
  intro p hp hne
  obtain ⟨i, j⟩ := p
  obtain ⟨h1, h2, h3, h4⟩ := hp
  have hr : rmC1.grid.num_rows = 2 := rfl
  have hc : rmC1.grid.num_cols = 2 := rfl
  rw [hr] at h3
  rw [hc] at h4
  dsimp only at h1 h2 h3 h4
  have hi : i = 0 ∨ i = 1 := by omega
  have hj : j = 0 ∨ j = 1 := by omega
  rcases hi with rfl | rfl <;> rcases hj with rfl | rfl
  · exact absurd rfl hne
  · decide
  · decide
  · decide

/-! ## Day 12 — cave path enumeration (`src/day12.rs`)

`CaveMap` holds a `Graph<Cave, ()>` plus the node indices of the `Start`
and `End` caves (`NodePtr` is a node index).  `Graph::get` /
`get_node_data` index the node vector (panic = `none` on an invalid
index). -/

/-- `enum Cave { End, Start, Big(String), Small(String) }`. -/
inductive Cave where
  | End
  | Start
  | Big (s : String)
  | Small (s : String)
deriving DecidableEq, Repr

/-- `matches!(_, Cave::Small(_))`. -/
def Cave.is_small : Cave → Bool
  | .Small _ => true
  | _ => false

/-- The `Debug` rendering of a cave (`format!("{:?}", cave)`). -/
def caveRepr : Cave → String
  | .End => "End"
  | .Start => "Start"
  | .Big s => "Big(" ++ s ++ ")"
  | .Small s => "Small(" ++ s ++ ")"

/-- `Graph::get_node_data` — `none` is the out-of-bounds index panic. -/
def Graph.get_node_data {N E : Type} (g : Graph N E) (i : Nat) : Option N :=
  (g.nodes.get? i).map GNode.data

/-- `struct CaveMap { map, start, end }`. -/
structure CaveMap where
  map : Graph Cave Unit
  start : Nat
  end_ : Nat
deriving DecidableEq, Repr

mutual

/-- `distinct_path_once` with explicit recursion fuel.  The `u64`
accumulator wraps (`% 2 ^ 64`); the `Vec` small-caves stack is mirrored
with its top at the list head (`push` = cons, `pop` = tail); the final
stack is returned alongside the count since the stack is a `&mut`
argument.  `none` is fuel exhaustion or an out-of-bounds index panic. -/
def distinct_path_once (m : CaveMap) :
    Nat → Nat → List Nat → Option (Nat × List Nat)
  | 0, _, _ => none
  | fuel + 1, curr, stack₀ =>
    if curr = m.end_ then some (1, stack₀)
    else
      match m.map.neighbours curr with
      | none => none
      | some ns =>
        match dpoLoop m fuel ns 0 stack₀ with
        | none => none
        | some (result, stack) =>
          match m.map.get_node_data curr with
          | none => none
          | some c => some (result, if c.is_small then stack.tail else stack)
termination_by fuel _ _ => (fuel, 0)

/-- The `for (curr_node_index, _) in cave_map.neighbours(curr)` loop of
`distinct_path_once`, threading the `u64` accumulator and the stack. -/
def dpoLoop (m : CaveMap) : Nat → List Nat → Nat → List Nat →
    Option (Nat × List Nat)
  | _, [], r, st => some (r, st)
  | fuel, v :: vs, r, st =>
    if v ∈ st ∨ v = m.start then dpoLoop m fuel vs r st
    else
      match m.map.get_node_data v with
      | none => none
      | some c =>
        match distinct_path_once m fuel v (if c.is_small then v :: st else st) with
        | none => none
        | some (sub, st2) => dpoLoop m fuel vs ((r + sub) % 2 ^ 64) st2
termination_by fuel l _ _ => (fuel, l.length + 1)

end

/-- The day-12 rule set as an inductive family: the walks from `curr`
with blocked list `st` that `distinct_path_once` is meant to count.  A
walk stops at the first arrival at the end node; a step may not enter
the start node or a blocked node, and entering a small cave blocks it. -/
inductive CavePath (m : CaveMap) : Nat → List Nat → List Nat → Prop where
  | done (st : List Nat) : CavePath m m.end_ st [m.end_]
  | step {curr : Nat} {st ns : List Nat} {v : Nat} {c : Cave} {w : List Nat} :
      curr ≠ m.end_ →
      m.map.neighbours curr = some ns →
      v ∈ ns →
      ¬ (v ∈ st ∨ v = m.start) →
      m.map.get_node_data v = some c →
      CavePath m v (if c.is_small then v :: st else st) w →
      CavePath m curr st (curr :: w)

theorem cavePath_head {m : CaveMap} {u : Nat} {st w : List Nat}
    (h : CavePath m u st w) : w.head? = some u := by
  cases h <;> rfl

/-- The admissible one-step continuations through the listed neighbours. -/
def ValidBranches (m : CaveMap) (st vs : List Nat) : Set (List Nat) :=
  {w | ∃ v ∈ vs, ¬ (v ∈ st ∨ v = m.start) ∧ ∃ c,
    m.map.get_node_data v = some c ∧
    CavePath m v (if c.is_small then v :: st else st) w}

theorem cavePath_decompose {m : CaveMap} {curr : Nat} {st ns : List Nat}
    (hne : curr ≠ m.end_) (hns : m.map.neighbours curr = some ns) :
    {w | CavePath m curr st w} = (curr :: ·) '' ValidBranches m st ns := by
  ext w
  constructor
  · intro h
    cases h with
    | done _ => exact absurd rfl hne
    | step h1 h2 h3 h4 h5 h6 =>
      have hh := hns.symm.trans h2
      injection hh with hh2
      subst hh2
      exact ⟨_, ⟨_, h3, h4, _, h5, h6⟩, rfl⟩
  · rintro ⟨w', ⟨v, hv, hnv, c, hc, hw'⟩, rfl⟩
    exact CavePath.step hne hns hv hnv hc hw'

/-- Partial correctness of `distinct_path_once`: whenever it terminates
(on a map whose end node is labelled `End` and whose adjacency lists have
no duplicate targets), it returns the number of admissible walks modulo
`2 ^ 64` and restores the small-caves stack. -/
theorem distinct_path_once_correct {m : CaveMap}
    (hend : m.map.get_node_data m.end_ = some Cave.End)
    (hnodup : ∀ u ns, m.map.neighbours u = some ns → ns.Nodup) :
    ∀ fuel curr st r st',
      distinct_path_once m fuel curr st = some (r, st') →
      {w | CavePath m curr st w}.Finite ∧
      r = {w | CavePath m curr st w}.ncard % 2 ^ 64 ∧
      (curr = m.end_ → st' = st) ∧
      (curr ≠ m.end_ → ∀ c, m.map.get_node_data curr = some c →
        st' = if c.is_small then st.tail else st) := by
  have hM : (2 : Nat) ^ 64 = 18446744073709551616 := by norm_num
  intro fuel
  induction fuel with
  | zero =>
    intro curr st r st' h
    simp [distinct_path_once] at h
  | succ fuel ih =>
    have hloop : ∀ vs r₀ st, vs.Nodup → r₀ < 2 ^ 64 →
        ∀ r' st', dpoLoop m fuel vs r₀ st = some (r', st') →
        (ValidBranches m st vs).Finite ∧
        r' = (r₀ + (ValidBranches m st vs).ncard) % 2 ^ 64 ∧
        st' = st ∧ r' < 2 ^ 64 := by
      intro vs
      induction vs with
      | nil =>
        intro r₀ st _ hr r' st' h
        simp only [dpoLoop, Option.some.injEq] at h
        injection h with h1 h2
        subst h1
        subst h2
        have hVB : ValidBranches m st ([] : List Nat) = ∅ := by
          ext w
          simp [ValidBranches]
        rw [hVB]
        refine ⟨Set.finite_empty, ?_, rfl, hr⟩
        rw [Set.ncard_empty]
        omega
      | cons v vs ihv =>
        intro r₀ st hnd hr r' st' h
        have hvnotin : v ∉ vs := (List.nodup_cons.mp hnd).1
        have hndtail : vs.Nodup := (List.nodup_cons.mp hnd).2
        by_cases hskip : v ∈ st ∨ v = m.start
        · rw [show dpoLoop m fuel (v :: vs) r₀ st =
              if v ∈ st ∨ v = m.start then dpoLoop m fuel vs r₀ st
              else match m.map.get_node_data v with
                | none => none
                | some c =>
                  match distinct_path_once m fuel v
                      (if c.is_small then v :: st else st) with
                  | none => none
                  | some (sub, st2) =>
                    dpoLoop m fuel vs ((r₀ + sub) % 2 ^ 64) st2
            from by rw [dpoLoop], if_pos hskip] at h
          obtain ⟨hfin, hre, hst, hlt⟩ := ihv r₀ st hndtail hr r' st' h
          have hVB : ValidBranches m st (v :: vs) = ValidBranches m st vs := by
            ext w
            constructor
            · rintro ⟨v', hv', hnv', c, hc, hw⟩
              rcases List.mem_cons.mp hv' with rfl | hv''
              · exact absurd hskip hnv'
              · exact ⟨v', hv'', hnv', c, hc, hw⟩
            · rintro ⟨v', hv', hnv', c, hc, hw⟩
              exact ⟨v', List.mem_cons_of_mem v hv', hnv', c, hc, hw⟩
          rw [hVB]
          exact ⟨hfin, hre, hst, hlt⟩
        · rw [show dpoLoop m fuel (v :: vs) r₀ st =
              if v ∈ st ∨ v = m.start then dpoLoop m fuel vs r₀ st
              else match m.map.get_node_data v with
                | none => none
                | some c =>
                  match distinct_path_once m fuel v
                      (if c.is_small then v :: st else st) with
                  | none => none
                  | some (sub, st2) =>
                    dpoLoop m fuel vs ((r₀ + sub) % 2 ^ 64) st2
            from by rw [dpoLoop], if_neg hskip] at h
          cases hc : m.map.get_node_data v with
          | none =>
            simp only [hc] at h
            exact Option.noConfusion h
          | some c =>
            simp only [hc] at h
            cases hsub : distinct_path_once m fuel v
                (if c.is_small then v :: st else st) with
            | none =>
              simp only [hsub] at h
              exact Option.noConfusion h
            | some p =>
              obtain ⟨sub, st2⟩ := p
              simp only [hsub] at h
              obtain ⟨hfin1, hsubeq, hstend, hstne⟩ := ih v _ sub st2 hsub
              have hst2 : st2 = st := by
                by_cases hve : v = m.end_
                · have hcE : c = Cave.End := by
                    rw [hve] at hc
                    rw [hend] at hc
                    injection hc with hh
                    exact hh.symm
                  have h1 := hstend hve
                  rw [hcE] at h1
                  simpa [Cave.is_small] using h1
                · have h1 := hstne hve c hc
                  cases hsm : c.is_small with
                  | true =>
                    rw [hsm] at h1
                    simpa using h1
                  | false =>
                    rw [hsm] at h1
                    simpa using h1
              rw [hst2] at h
              have hrmod : (r₀ + sub) % 2 ^ 64 < 2 ^ 64 := by
                apply Nat.mod_lt
                omega
              obtain ⟨hfin2, hre, hst, hlt⟩ :=
                ihv ((r₀ + sub) % 2 ^ 64) st hndtail hrmod r' st' h
              have hVB : ValidBranches m st (v :: vs) =
                  {w | CavePath m v (if c.is_small then v :: st else st) w} ∪
                    ValidBranches m st vs := by
                ext w
                constructor
                · rintro ⟨v', hv', hnv', c', hc', hw⟩
                  rcases List.mem_cons.mp hv' with rfl | hv''
                  · left
                    have hcc : c' = c := by
                      rw [hc] at hc'
                      injection hc' with hh
                      exact hh.symm
                    rw [hcc] at hw
                    exact hw
                  · right
                    exact ⟨v', hv'', hnv', c', hc', hw⟩
                · rintro (hw | ⟨v', hv', hnv', c', hc', hw⟩)
                  · exact ⟨v, List.mem_cons_self v vs, hskip, c, hc, hw⟩
                  · exact ⟨v', List.mem_cons_of_mem v hv', hnv', c', hc', hw⟩
              have hdisj : Disjoint
                  {w | CavePath m v (if c.is_small then v :: st else st) w}
                  (ValidBranches m st vs) := by
                rw [Set.disjoint_left]
                rintro w hw1 ⟨v', hv', hnv', c', hc', hw2⟩
                have hh1 := cavePath_head hw1
                have hh2 := cavePath_head hw2
                rw [hh1] at hh2
                injection hh2 with hh3
                rw [← hh3] at hv'
                exact hvnotin hv'
              rw [hVB]
              refine ⟨hfin1.union hfin2, ?_, hst, hlt⟩
              rw [Set.ncard_union_eq hdisj hfin1 hfin2]
              rw [hre, hsubeq]
              rw [hM]
              omega
    intro curr st r st' h
    by_cases hce : curr = m.end_
    · rw [show distinct_path_once m (fuel + 1) curr st =
          if curr = m.end_ then some (1, st)
          else match m.map.neighbours curr with
            | none => none
            | some ns =>
              match dpoLoop m fuel ns 0 st with
              | none => none
              | some (result, stack) =>
                match m.map.get_node_data curr with
                | none => none
                | some c =>
                  some (result, if c.is_small then stack.tail else stack)
        from by rw [distinct_path_once], if_pos hce] at h
      injection h with h1
      injection h1 with h2 h3
      subst h2
      subst h3
      subst hce
      have hset : {w | CavePath m m.end_ st w} = {[m.end_]} := by
        ext w
        constructor
        · intro hw
          cases hw with
          | done _ => rfl
          | step h1 _ _ _ _ _ => exact absurd rfl h1
        · rintro rfl
          exact CavePath.done st
      rw [hset]
      refine ⟨Set.finite_singleton _, ?_, fun _ => rfl, fun hne => absurd rfl hne⟩
      rw [Set.ncard_singleton]
      omega
    · rw [show distinct_path_once m (fuel + 1) curr st =
          if curr = m.end_ then some (1, st)
          else match m.map.neighbours curr with
            | none => none
            | some ns =>
              match dpoLoop m fuel ns 0 st with
              | none => none
              | some (result, stack) =>
                match m.map.get_node_data curr with
                | none => none
                | some c =>
                  some (result, if c.is_small then stack.tail else stack)
        from by rw [distinct_path_once], if_neg hce] at h
      cases hns : m.map.neighbours curr with
      | none =>
        simp only [hns] at h
        exact Option.noConfusion h
      | some ns =>
        simp only [hns] at h
        cases hlp : dpoLoop m fuel ns 0 st with
        | none =>
          simp only [hlp] at h
          exact Option.noConfusion h
        | some p =>
          obtain ⟨result, stack⟩ := p
          simp only [hlp] at h
          cases hcd : m.map.get_node_data curr with
          | none =>
            simp only [hcd] at h
            exact Option.noConfusion h
          | some c =>
            simp only [hcd, Option.some.injEq] at h
            injection h with h1 h2
            subst h1
            subst h2
            obtain ⟨hfin, hre, hst, _⟩ :=
              hloop ns 0 st (hnodup curr ns hns) (by omega) result stack hlp
            rw [hst]
            rw [cavePath_decompose hce hns]
            refine ⟨hfin.image _, ?_, fun he => absurd he hce, ?_⟩
            · rw [Set.ncard_image_of_injective _ (List.cons_injective)]
              omega
            · intro _ c' hc'
              injection hc' with hcc
              rw [← hcc]

theorem cavePath_end_set (m : CaveMap) (st : List Nat) :
    {w | CavePath m m.end_ st w} = {[m.end_]} := by
  ext w
  constructor
  · intro hw
    cases hw with
    | done _ => rfl
    | step h1 _ _ _ _ _ => exact absurd rfl h1
  · rintro rfl
    exact CavePath.done st

/-- **C3** (amended): on every cave map whose end node is labelled `End`
and whose adjacency lists carry no duplicate targets, whenever
`distinct_path_once` — invoked on the start node with an empty small-cave
stack — terminates, it returns the number of distinct paths from the
start node to the end node in which the start is never re-entered, every
small cave appears at most once and big caves appear any number of
times, taken modulo `2 ^ 64` (the `u64` accumulator).  With parallel
edges the function instead counts one completion per edge and
overcounts; on graphs where two big caves are adjacent it does not
terminate (the path count is infinite). -/
theorem distinct_path_once_counts (m : CaveMap)
    (hend : m.map.get_node_data m.end_ = some Cave.End)
    (hnodup : ∀ u ns, m.map.neighbours u = some ns → ns.Nodup)
    (fuel r : Nat) (st' : List Nat)
    (h : distinct_path_once m fuel m.start [] = some (r, st')) :
    {w | CavePath m m.start [] w}.Finite ∧
    r = {w | CavePath m m.start [] w}.ncard % 2 ^ 64 := by
  obtain ⟨h1, h2, _⟩ :=
    distinct_path_once_correct hend hnodup fuel m.start [] r st' h
  exact ⟨h1, h2⟩

/-- The `Graph::from` calls made for the input `start-A-end` (lines
`start-A`, `A-end`, each a bidirectional relationship inserted as two
directed edges, nodes created on first sight). -/
def c3ops : List (GOp Cave Unit) :=
  [.node .Start, .node (.Big "A"), .edge 0 1 (), .edge 1 0 (),
   .node .End, .edge 1 2 (), .edge 2 1 ()]

/-- The graph those calls build. -/
def gW : Graph Cave Unit :=
  ⟨[⟨Cave.Start, 0, some 0⟩, ⟨Cave.Big "A", 1, some 2⟩, ⟨Cave.End, 2, some 3⟩],
   [⟨(), 1, none⟩, ⟨(), 0, none⟩, ⟨(), 2, some 1⟩, ⟨(), 1, none⟩]⟩

theorem gW_built : buildGraph c3ops = some gW := by decide

/-- The `start-A-end` cave map. -/
def mW : CaveMap := ⟨gW, 0, 2⟩

theorem mW_nodup : ∀ u ns, mW.map.neighbours u = some ns → ns.Nodup := by
  intro u ns h
  match u with
  | 0 =>
    rw [show mW.map.neighbours 0 = some [1] from by decide] at h
    injection h with h1
    subst h1
    decide
  | 1 =>
    rw [show mW.map.neighbours 1 = some [2, 0] from by decide] at h
    injection h with h1
    subst h1
    decide
  | 2 =>
    rw [show mW.map.neighbours 2 = some [1] from by decide] at h
    injection h with h1
    subst h1
    decide
  | u + 3 =>
    have hg : mW.map.nodes.get? (u + 3) = none := by
      apply List.get?_eq_none.mpr
      show mW.map.nodes.length ≤ u + 3
      rw [show mW.map.nodes.length = 3 from rfl]
      omega
    simp only [Graph.neighbours, hg] at h
    exact Option.noConfusion h

theorem distinct_path_once_counts_witness :
    {w | CavePath mW mW.start [] w}.Finite ∧
    1 = {w | CavePath mW mW.start [] w}.ncard % 2 ^ 64 :=
  distinct_path_once_counts mW (by decide) mW_nodup 10 1 []
    (by simp [distinct_path_once, dpoLoop, mW, gW, Graph.neighbours,
      Graph.get_node_data, Graph.chainToList, Cave.is_small])

/-- The `Graph::from` calls made for the duplicated input line
`start-end`, `start-end`. -/
def dOps : List (GOp Cave Unit) :=
  [.node .Start, .node .End, .edge 0 1 (), .edge 1 0 (),
   .edge 0 1 (), .edge 1 0 ()]

/-- The graph those calls build: two parallel edge pairs. -/
def gD : Graph Cave Unit :=
  ⟨[⟨Cave.Start, 0, some 2⟩, ⟨Cave.End, 1, some 3⟩],
   [⟨(), 1, none⟩, ⟨(), 0, none⟩, ⟨(), 1, some 0⟩, ⟨(), 0, some 1⟩]⟩

theorem gD_built : buildGraph dOps = some gD := by decide

/-- The duplicated `start-end` cave map. -/
def mD : CaveMap := ⟨gD, 0, 1⟩

/-- Counterexample to C3 as frozen: the cave map built from a duplicated
`start-end` line has exactly one distinct admissible path, yet
`distinct_path_once` returns 2 — it counts one completion per parallel
edge, not per distinct path. -/
theorem distinct_path_once_overcounts :
    distinct_path_once mD 5 mD.start [] = some (2, []) ∧
    {w | CavePath mD mD.start [] w}.ncard = 1 := by
  constructor
  · simp [distinct_path_once, dpoLoop, mD, gD, Graph.neighbours,
      Graph.get_node_data, Graph.chainToList, Cave.is_small]
  · have hdec : {w | CavePath mD mD.start [] w} =
        (mD.start :: ·) '' ValidBranches mD [] [1, 1] :=
      cavePath_decompose (by decide) (by decide)
    have hVB : ValidBranches mD [] [1, 1] = {w | CavePath mD 1 [] w} := by
      ext w
      constructor
      · rintro ⟨v, hv, hnv, c, hc, hw⟩
        have hv1 : v = 1 := by
          rcases List.mem_cons.mp hv with rfl | hv'
          · rfl
          · simpa using hv'
        subst hv1
        have hcE : c = Cave.End := by
          have h9 : mD.map.get_node_data 1 = some Cave.End := by decide
          have h10 := h9.symm.trans hc
          injection h10 with h10
          exact h10.symm
        rw [hcE] at hw
        simpa [Cave.is_small] using hw
      · intro hw
        refine ⟨1, by decide, by decide, Cave.End, by decide, ?_⟩
        simpa [Cave.is_small] using hw
    have hend1 : {w | CavePath mD 1 [] w} = {[1]} := cavePath_end_set mD []
    rw [hdec, hVB, hend1, Set.image_singleton, Set.ncard_singleton]

/-! ### `part2` — per-candidate re-runs with string deduplication -/

/-- The `&mut` state of `distinct_path_with_options`: the current path of
`Debug`-rendered cave labels, the visited small set (a `HashSet` of node
indices, modelled as a duplicate-free list), and every path sent through
the channel so far. -/
structure PathState where
  path : List String
  visited : List Nat
  sent : List (List String)
deriving DecidableEq, Repr

mutual

/-- `distinct_path_with_options` with explicit recursion fuel.  The `i32`
repeat budget is modelled as an unbounded integer (its value never
approaches the `i32` range within any feasible fuel).  `none` is fuel
exhaustion, an out-of-bounds index panic, or the `pop_path` assertion
panic. -/
def distinct_path_with_options (m : CaveMap) (repeat_node : Cave) :
    Nat → Nat → Int → PathState → Option PathState
  | 0, _, _, _ => none
  | fuel + 1, curr, count, ps =>
    match m.map.get_node_data curr with
    | none => none
    | some ccave =>
      let ps1 : PathState := { ps with path := ps.path ++ [caveRepr ccave] }
      if curr = m.end_ then some { ps1 with sent := ps1.sent ++ [ps1.path] }
      else
        match m.map.neighbours curr with
        | none => none
        | some ns =>
          match dpwLoop m repeat_node fuel ns count ps1 with
          | none => none
          | some ps2 =>
            match m.map.get_node_data curr with
            | none => none
            | some c =>
              some (if c.is_small then
                { ps2 with visited := ps2.visited.erase curr } else ps2)
termination_by fuel _ _ _ => (fuel, 0)

/-- The neighbour loop of `distinct_path_with_options`, threading the
budget and the path state. -/
def dpwLoop (m : CaveMap) (repeat_node : Cave) :
    Nat → List Nat → Int → PathState → Option PathState
  | _, [], _, ps => some ps
  | fuel, v :: vs, count, ps =>
    match m.map.get_node_data v with
    | none => none
    | some cave =>
      if (repeat_node = cave ∧ count ≠ 0) ∨
          ¬ (v ∈ ps.visited ∨ v = m.start) then
        let count' := if repeat_node = cave ∧ count ≠ 0 then count - 1
          else count
        let ps1 : PathState := if cave.is_small then
            { ps with visited :=
              if v ∈ ps.visited then ps.visited else v :: ps.visited }
          else ps
        match distinct_path_with_options m repeat_node fuel v count' ps1 with
        | none => none
        | some ps2 =>
          if ps2.path = [] then none
          else
            dpwLoop m repeat_node fuel vs
              (if repeat_node = cave then count' + 1 else count')
              { ps2 with path := ps2.path.dropLast }
      else dpwLoop m repeat_node fuel vs count ps
termination_by fuel l _ _ => (fuel, l.length + 1)

end

/-- `part2`: one `distinct_path_with_options` run per `Small` node datum
(in node order, each from the start node with budget 2 and fresh state),
then `PathsBuilder::build` — count the distinct concatenations of the
sent paths. -/
def part2 (m : CaveMap) (fuel : Nat) : Option Nat := do
  let runs ← ((m.map.nodes.map GNode.data).filter
      fun c => c.is_small).mapM
    fun cave => distinct_path_with_options m cave fuel m.start 2 ⟨[], [], []⟩
  some ((((runs.map PathState.sent).flatten).map
    fun p => p.foldl (fun acc x => acc ++ x) "").dedup.length)

/-- The day-12 part-2 rule set: like `CavePath`, but one small cave may
be entered a second time while blocked, consuming the single revisit
(flag `false` → `true`). -/
inductive CavePath2 (m : CaveMap) : Nat → List Nat → Bool → List Nat → Prop where
  | done (st : List Nat) (b : Bool) : CavePath2 m m.end_ st b [m.end_]
  | step {curr : Nat} {st ns : List Nat} {b : Bool} {v : Nat} {c : Cave}
      {w : List Nat} :
      curr ≠ m.end_ →
      m.map.neighbours curr = some ns →
      v ∈ ns →
      ¬ (v ∈ st ∨ v = m.start) →
      m.map.get_node_data v = some c →
      CavePath2 m v (if c.is_small then v :: st else st) b w →
      CavePath2 m curr st b (curr :: w)
  | revisit {curr : Nat} {st ns : List Nat} {v : Nat} {c : Cave}
      {w : List Nat} :
      curr ≠ m.end_ →
      m.map.neighbours curr = some ns →
      v ∈ ns →
      v ∈ st →
      v ≠ m.start →
      m.map.get_node_data v = some c →
      CavePath2 m v st true w →
      CavePath2 m curr st false (curr :: w)

/-- The single-edge `start-end` cave map (graph of the input line
`start-end`). -/
def mSE : CaveMap :=
  ⟨⟨[⟨Cave.Start, 0, some 0⟩, ⟨Cave.End, 1, some 1⟩],
    [⟨(), 1, none⟩, ⟨(), 0, none⟩]⟩, 0, 1⟩

theorem mSE_built : buildGraph
    [GOp.node Cave.Start, .node .End, .edge 0 1 (), .edge 1 0 ()] =
    some mSE.map := by decide

/-- **C4** — the divergence behind the code bug: `part2` runs one search
per `Small` node, so on the `start-end` cave map (which has no small
caves) it runs no searches at all and returns 0, although exactly one
distinct path qualifies under the claimed rule set (at most one small
cave up to twice, other small caves at most once, big caves unbounded,
start never re-entered). -/
theorem part2_no_small_caves_bug :
    (∀ fuel, part2 mSE fuel = some 0) ∧
    {w | CavePath2 mSE mSE.start [] false w}.ncard = 1 := by
  constructor
  · intro fuel
    rfl
  · have hset : {w | CavePath2 mSE mSE.start [] false w} = {[0, 1]} := by
      ext w
      constructor
      · intro h
        cases h with
        | step h1 h2 h3 h4 h5 h6 =>
          rename_i ns v c w'
          have hns : mSE.map.neighbours mSE.start = some [1] := by decide
          have hh := hns.symm.trans h2
          injection hh with hh
          subst hh
          have hv : v = 1 := by simpa using h3
          subst hv
          have hcE : c = Cave.End := by
            have h9 : mSE.map.get_node_data 1 = some Cave.End := by decide
            have h10 := h9.symm.trans h5
            injection h10 with h10
            exact h10.symm
          subst hcE
          cases h6 with
          | done _ _ => rfl
          | step h1' _ _ _ _ _ => exact absurd rfl h1'
          | revisit h1' _ _ _ _ _ _ => exact absurd rfl h1'
        | revisit h1 h2 h3 h4 h5 h6 h7 =>
          exact absurd h4 (List.not_mem_nil _)
      · rintro rfl
        refine CavePath2.step (by decide)
          (show mSE.map.neighbours mSE.start = some [1] from by decide)
          (by decide) (by decide)
          (show mSE.map.get_node_data 1 = some Cave.End from by decide) ?_
        exact CavePath2.done _ _
    rw [hset, Set.ncard_singleton]

/-! ### C1 counterexample — `u16` accumulator overflow on a 1×7283 map -/

set_option maxRecDepth 40000

/-- A 1×7283 risk map: every cost 9, best-known costs as `RiskMap::new`
leaves them (0 at the start cell, 65535 elsewhere).  The true shortest
cost to the end cell is `9·7282 = 65538 > 65535`, outside `u16` range. -/
def rm1D : RiskMap :=
  ⟨⟨[(List.range 7283).map fun j =>
      ((9 : Nat), if j = 0 then (0 : Nat) else 65535)]⟩⟩

theorem rm1D_rows : rm1D.grid.num_rows = 1 := by
  show rm1D.grid.matrix.length = 1
  rw [show rm1D.grid.matrix = [(List.range 7283).map fun j =>
    ((9 : Nat), if j = 0 then (0 : Nat) else 65535)] from rfl]
  rw [List.length_singleton]

theorem rm1D_cols : rm1D.grid.num_cols = 7283 := by
  show ((List.range 7283).map fun j =>
    ((9 : Nat), if j = 0 then (0 : Nat) else 65535)).length = 7283
  rw [List.length_map, List.length_range]

theorem rm1D_cell {j : Nat} (hj : j < 7283) :
    (rm1D.grid.matrix.get? 0).bind (fun row => row.get? j) =
      some (9, if j = 0 then 0 else 65535) := by
  rw [show rm1D.grid.matrix.get? 0 = some ((List.range 7283).map fun j =>
    ((9 : Nat), if j = 0 then (0 : Nat) else 65535)) from rfl]
  exact get?_map_range _ hj

theorem rm1D_riskAt {j : Nat} (hj : j < 7283) : riskAt rm1D.grid 0 j = 9 := by
  unfold riskAt
  rw [rm1D_cell hj]
  rfl

theorem rm1D_bestAt {j : Nat} (hj : j < 7283) :
    bestAt rm1D.grid 0 j = if j = 0 then 0 else 65535 := by
  unfold bestAt
  rw [rm1D_cell hj]
  rfl

theorem rm1D_rect : rm1D.grid.Rect := by
  intro row hrow
  have hr : row = (List.range 7283).map fun j =>
      ((9 : Nat), if j = 0 then (0 : Nat) else 65535) := by
    simpa [rm1D] using hrow
  rw [hr, rm1D_cols, List.length_map, List.length_range]

theorem rm1D_costsOK : CostsOK rm1D.grid := by
  intro p hp
  obtain ⟨h1, h2, h3, h4⟩ := hp
  rw [rm1D_rows] at h3
  rw [rm1D_cols] at h4
  have hi : p.i.toNat = 0 := by omega
  have hj : p.j.toNat < 7283 := by omega
  rw [hi, rm1D_riskAt hj]
  omega

theorem rm1D_B0 : bestAtC rm1D.grid ⟨0, 0⟩ = 0 := by
  show bestAt rm1D.grid 0 0 = 0
  rw [rm1D_bestAt (by omega)]
  rfl

theorem rm1D_Brest : ∀ p, ValidPos rm1D.grid p → p ≠ ⟨0, 0⟩ →
    bestAtC rm1D.grid p = 65535 := by
  intro p hp hne
  obtain ⟨h1, h2, h3, h4⟩ := hp
  rw [rm1D_rows] at h3
  rw [rm1D_cols] at h4
  have hi : p.i.toNat = 0 := by omega
  have hj : p.j.toNat < 7283 := by omega
  have hjne : p.j.toNat ≠ 0 := by
    intro h0
    apply hne
    have hpi : p.i = 0 := by omega
    have hpj : p.j = 0 := by omega
    cases p
    simp_all
  show bestAt rm1D.grid p.i.toNat p.j.toNat = 65535
  rw [hi, rm1D_bestAt hj, if_neg hjne]

/-- Every value `lowest_risk` can return on this map fits in a `u16`. -/
theorem rm1D_ret_le : ∀ v, rm1D.lowest_risk = some v → v ≤ 65535 := by
  intro v hv
  have hrow : 0 < rm1D.grid.num_rows := by
    rw [rm1D_rows]
    omega
  have hcol : 0 < rm1D.grid.num_cols := by
    rw [rm1D_cols]
    omega
  have hendv : ValidPos rm1D.grid rm1D.end_coord := by
    unfold RiskMap.end_coord UnsizedGrid.last_coordinate ValidPos
    dsimp only
    omega
  have hinv₀ := c8Inv_init rm1D_rect hrow hcol rm1D_B0 rm1D_Brest hendv
  have hv' : iterateD rm1D.end_coord
      (dijkstraFuel ⟨rm1D.grid, [(0, ⟨0, 0⟩)]⟩)
      ⟨rm1D.grid, [(0, ⟨0, 0⟩)]⟩ = some v := hv
  obtain ⟨n, s', h1, h2⟩ := iterateD_ret_decomp _ _ v hv'
  have hinv' := c8Inv_stepN hendv n _ s' hinv₀ h1
  have hBv := (c8_step hendv hinv').1 v h2
  have hle := hinv'.bestLe rm1D.end_coord hendv
  omega

/-- Along a chain of cardinal steps, the column displacement is bounded
by the number of steps. -/
theorem chain_adjacent_j_bound :
    ∀ (w : List Coordinate), List.Chain' Adjacent w →
      ∀ a b, w.head? = some a → w.getLast? = some b →
        (b.j - a.j).natAbs ≤ w.length - 1 := by
  intro w
  induction w with
  | nil =>
    intro _ a b h
    exact absurd h (by simp)
  | cons x xs ih =>
    intro hch a b ha hb
    have hax : x = a := by
      injection ha
    subst hax
    cases xs with
    | nil =>
      have hxb : x = b := by
        simp only [List.getLast?_singleton, Option.some.injEq] at hb
        exact hb
      subst hxb
      simp
    | cons y ys =>
      obtain ⟨hadj, hch'⟩ := List.chain'_cons.mp hch
      have hb' : (y :: ys).getLast? = some b := by
        rwa [List.getLast?_cons_cons] at hb
      have ihh := ih hch' y b rfl hb'
      obtain ⟨d, hd⟩ := hadj
      have hjd : (y.j - x.j).natAbs ≤ 1 := by
        rw [hd]
        unfold Coordinate.addDir Direction.offset
        cases d <;> dsimp only <;> omega
      simp only [List.length_cons] at ihh ⊢
      omega

/-- Each element list summing a constant 9. -/
theorem sum_map_nine {α : Type} (f : α → Nat) :
    ∀ (l : List α), (∀ p ∈ l, f p = 9) → (l.map f).sum = 9 * l.length := by
  intro l
  induction l with
  | nil =>
    intro _
    simp
  | cons x xs ih =>
    intro h
    simp only [List.map_cons, List.sum_cons, List.length_cons]
    rw [h x (List.mem_cons_self x xs),
      ih (fun p hp => h p (List.mem_cons_of_mem x hp))]
    ring

/-- The true shortest cost on the 1×7283 map is at least `65538`. -/
theorem rm1D_min_lower : ∀ r ∈ costsTo rm1D.grid rm1D.end_coord, 65538 ≤ r := by
  intro r hr
  obtain ⟨w, hw, hcost⟩ := hr
  obtain ⟨hhead, hlast, hchain, hvalid⟩ := hw
  have hendj : (rm1D.end_coord).j = 7282 := by
    show (rm1D.grid.num_cols : Int) - 1 = 7282
    rw [rm1D_cols]
    norm_num
  have hdisp := chain_adjacent_j_bound w hchain ⟨0, 0⟩ rm1D.end_coord hhead hlast
  rw [hendj] at hdisp
  have hlen : 7282 ≤ w.length - 1 := by
    simpa using hdisp
  have hcost9 : ∀ p ∈ w.tail, (fun p : Coordinate =>
      riskAt rm1D.grid p.i.toNat p.j.toNat) p = 9 := by
    intro p hp
    have hpv := hvalid p (List.mem_of_mem_tail hp)
    obtain ⟨h1, h2, h3, h4⟩ := hpv
    rw [rm1D_rows] at h3
    rw [rm1D_cols] at h4
    have hi : p.i.toNat = 0 := by omega
    dsimp only
    rw [hi]
    exact rm1D_riskAt (by omega)
  have hsum : walkCost rm1D.grid w = 9 * w.tail.length := by
    unfold walkCost
    exact sum_map_nine _ w.tail hcost9
  have hlen2 : w.tail.length = w.length - 1 := by
    simp [List.length_tail]
  omega

/-- Counterexample to C1 as frozen: the 1×7283 all-nines risk map meets
every hypothesis of the claim (non-empty, rectangular, costs in 1..=9,
best-known costs initialized to 0 at the start and the `u16` maximum
elsewhere), yet `lowest_risk` cannot return the minimum path cost: the
`u16` accumulator confines every returned value below 65536 while the
true minimum is `9·7282 = 65538`. -/
theorem lowest_risk_overflow_counterexample :
    rm1D.grid.Rect ∧ 0 < rm1D.grid.num_rows ∧ 0 < rm1D.grid.num_cols ∧
    CostsOK rm1D.grid ∧ bestAtC rm1D.grid ⟨0, 0⟩ = 0 ∧
    (∀ p, ValidPos rm1D.grid p → p ≠ ⟨0, 0⟩ →
      bestAtC rm1D.grid p = 65535) ∧
    ¬ ∃ r, rm1D.lowest_risk = some r ∧
      IsLeast (costsTo rm1D.grid rm1D.end_coord) r := by
  refine ⟨rm1D_rect, by rw [rm1D_rows]; omega, by rw [rm1D_cols]; omega,
    rm1D_costsOK, rm1D_B0, rm1D_Brest, ?_⟩
  rintro ⟨r, hr, hmem, _⟩
  have h1 := rm1D_ret_le r hr
  have h2 := rm1D_min_lower r hmem
  omega

end AoC
